import Mathlib

/-!
Verification development for the budget-planner transaction pipeline.

The definitions below are a shallow embedding of the pipeline code:
the categorizer (payee normalization, rule matching, fallback mapping,
fuzzy resolution, payee overrides), the exclusion filter, the bill
candidacy and status engine, the CSV-row intake stage, and the
variable-spending aggregator.  JavaScript numbers are modelled as exact
rationals, JS Map objects as association lists, JS Set membership as
list membership, and the in-place row mutation of the source as pure
record updates mapped over the batch.
-/

/-- First-seen deduplication with an accumulator of already seen keys.
Models iteration over a JS Set built by insertion (later duplicates are
dropped, first occurrence order is kept). -/
def uniqueFirstAux [DecidableEq α] (seen : List α) : List α → List α
  | [] => []
  | x :: xs =>
    if x ∈ seen then uniqueFirstAux seen xs
    else x :: uniqueFirstAux (x :: seen) xs

/-- Models `[...new Set(list)]`: the list with later duplicates removed. -/
def uniqueFirst [DecidableEq α] (l : List α) : List α :=
  uniqueFirstAux [] l

/-- Substring test on character lists: some tail of the haystack starts
with the needle. -/
def listIsInfix (needle hay : List Char) : Bool :=
  hay.tails.any (fun t => needle.isPrefixOf t)

/-- Models `String.prototype.includes`. -/
def strIncludes (s pat : String) : Bool :=
  listIsInfix pat.toList s.toList

/-- Models the JS expression `opt || dflt` on an optional string field:
`undefined` and the empty string are falsy. -/
def jsOr (o : Option String) (dflt : String) : String :=
  match o with
  | some s => if s = "" then dflt else s
  | none => dflt

/-- Lexicographic comparison of character lists by code point,
modelling the default JS string comparison on the batch month keys. -/
def listCharLe : List Char → List Char → Bool
  | [], _ => true
  | _ :: _, [] => false
  | a :: as, b :: bs =>
    if a.toNat < b.toNat then true
    else if b.toNat < a.toNat then false
    else listCharLe as bs

/-- String comparison used when sorting month keys. -/
def strLe (a b : String) : Bool :=
  listCharLe a.toList b.toList

/-- Insertion into a list sorted by the Boolean comparison `le`. -/
def insertLeB (le : α → α → Bool) (x : α) : List α → List α
  | [] => [x]
  | y :: ys => if le x y then x :: y :: ys else y :: insertLeB le x ys

/-- Insertion sort by the Boolean comparison `le`, modelling
`Array.prototype.sort` with the corresponding comparator. -/
def sortLeB (le : α → α → Bool) (l : List α) : List α :=
  l.foldr (insertLeB le) []

/-- Trims leading and trailing whitespace (`String.prototype.trim`). -/
def jsTrim (s : String) : String :=
  String.mk (((s.toList.dropWhile Char.isWhitespace).reverse.dropWhile
    Char.isWhitespace).reverse)

/-- Lower-cases a string character by character
(`String.prototype.toLowerCase`; the payee normalizer discards every
character outside the ASCII range afterwards, so the ASCII case
mapping is the relevant one). -/
def toLowerStr (s : String) : String :=
  String.mk (s.toList.map Char.toLower)

/-- Splits a character list at a separator character, keeping empty
segments (`String.prototype.split`). -/
def splitCharList (sep : Char) : List Char → List (List Char)
  | [] => [[]]
  | c :: cs =>
    let rest := splitCharList sep cs
    if c = sep then [] :: rest
    else
      match rest with
      | [] => [[c]]
      | g :: gs => (c :: g) :: gs

/-- `dateStr.split("/")`. -/
def splitOnSlash (s : String) : List String :=
  (splitCharList '/' s.toList).map String.mk

/-- The transaction record flowing through the pipeline
(`TransactionRow` in the source, with the fields the pipeline adds).
Monetary values and confidences are exact rationals; the stored JS
`Date` is modelled by its day number since the Unix epoch
(`getTime()` equals that day count times 86400000). -/
structure TransactionRow where
  id : String
  name : String
  monzoCategory : String
  payeeNormalized : String
  categoryFinal : String
  categoryGroup : String
  isBillRule : Bool
  confidenceScore : ℚ
  confidenceReason : String
  ruleIdApplied : String
  monthKey : String
  day : Int
  dateDays : Int
  type : String
  amount : ℚ
  amountAbs : ℚ
  direction : String
  notes : String
  accountLabel : String
  sourceFile : String
  isSpend : Bool
  isInternalTransfer : Bool
  isBillCandidate : Bool
  billStatus : String
  requiredAmountExact : ℚ
  typicalDay : Option Int
deriving DecidableEq

/-- A default row used as the `getD` fallback in statements. -/
def row0 : TransactionRow where
  id := ""
  name := ""
  monzoCategory := ""
  payeeNormalized := ""
  categoryFinal := ""
  categoryGroup := ""
  isBillRule := false
  confidenceScore := 0
  confidenceReason := ""
  ruleIdApplied := ""
  monthKey := ""
  day := 0
  dateDays := 0
  type := ""
  amount := 0
  amountAbs := 0
  direction := ""
  notes := ""
  accountLabel := ""
  sourceFile := ""
  isSpend := false
  isInternalTransfer := false
  isBillCandidate := false
  billStatus := "not_bill"
  requiredAmountExact := 0
  typicalDay := none

/-- Characters the payee normalizer keeps: `[a-z0-9+& ]`. -/
def isAllowedChar (c : Char) : Bool :=
  (decide ('a' ≤ c) && decide (c ≤ 'z')) ||
  (decide ('0' ≤ c) && decide (c ≤ '9')) ||
  c == '+' || c == '&' || c == ' '

/-- Collapses each run of spaces to a single space (the second regex
replacement of the normalizer; after the first replacement the only
whitespace left is the plain space). -/
def collapseSpaces (l : List Char) : List Char :=
  l.foldr (fun c acc => if c == ' ' && acc.head? == some ' ' then acc else c :: acc) []

/-- Drops leading and trailing spaces. -/
def trimSpaces (l : List Char) : List Char :=
  ((l.dropWhile (· == ' ')).reverse.dropWhile (· == ' ')).reverse

/-- `normalizePayee` from the source: trim, lower-case, replace every
run of characters outside `[a-z0-9+& ]` with a space, collapse
whitespace runs, trim.  Replacing each disallowed character by a space
and then collapsing space runs yields exactly the result of replacing
each maximal disallowed run by one space and then collapsing. -/
def normalizePayee (value : String) : String :=
  let text := toLowerStr (jsTrim value)
  let replaced := text.toList.map (fun c => if isAllowedChar c then c else ' ')
  String.mk (trimSpaces (collapseSpaces replaced))

/-- A category rule.  The compiled case-insensitive regular expression
of the source is abstracted as a Boolean test on the normalized key
(the regex engine is an external collaborator). -/
structure Rule where
  id : String
  pattern : String → Bool
  category : String
  group : String
  isBill : Bool
  confidence : ℚ

/-- `matchRule`: the first rule in the supplied order whose pattern
accepts the key, or none. -/
def matchRule (rules : List Rule) (payeeNorm : String) : Option Rule :=
  rules.find? (fun ru => ru.pattern payeeNorm)

/-- `FALLBACK_CATEGORY_MAP` from the source: provider category to
(final category, group, bill flag, confidence). -/
def FALLBACK_CATEGORY_MAP : String → Option (String × String × Bool × ℚ)
  | "Groceries" => some ("Groceries (non-Spar)", "variable", false, 0.55)
  | "Entertainment" => some ("Entertainment & Activities", "variable", false, 0.55)
  | "Transport" => some ("Transport", "variable", false, 0.55)
  | "Shopping" => some ("Shopping (general)", "variable", false, 0.55)
  | "Finances" => some ("Debt Repayments / Finance Plans", "required_bill", true, 0.5)
  | "General" => some ("Other - General", "variable", false, 0.45)
  | _ => none

/-- Longest-common-subsequence recursion with an explicit fuel bound
so the definition is structurally recursive; `lcsLen` supplies enough
fuel for the recursion never to hit the cutoff. -/
def lcsAux : Nat → List Char → List Char → Nat
  | 0, _, _ => 0
  | _ + 1, [], _ => 0
  | _ + 1, _ :: _, [] => 0
  | fuel + 1, a :: as, b :: bs =>
    if a = b then lcsAux fuel as bs + 1
    else max (lcsAux fuel (a :: as) bs) (lcsAux fuel as (b :: bs))

/-- Longest common subsequence length; the source computes the same
quantity with a prefix dynamic-programming table. -/
def lcsLen (xs ys : List Char) : Nat :=
  lcsAux (xs.length + ys.length) xs ys

/-- `sequenceMatcherRatio`: equal strings score 1, a pair with an empty
side scores 0, otherwise twice the LCS length of the shorter and longer
string over the total length. -/
def sequenceMatcherRatio (a b : String) : ℚ :=
  if a = b then 1
  else if a = "" ∨ b = "" then 0
  else
    let longer := if a.length > b.length then a else b
    let shorter := if a.length > b.length then b else a
    if longer.length = 0 then 1
    else (2 * (lcsLen shorter.toList longer.toList) : ℚ) / ((shorter.length : ℚ) + (longer.length : ℚ))

/-- Pass 1 of `categorize` on one row: normalize the payee, reset the
classification fields, then apply the first matching rule, else the
provider-category fallback, else leave the needs-review sentinel. -/
def pass1Row (rules : List Rule) (r : TransactionRow) : TransactionRow :=
  let key := normalizePayee r.name
  let base := {r with payeeNormalized := key,
                      categoryFinal := "Unmapped - Needs Review",
                      categoryGroup := "variable",
                      isBillRule := false,
                      confidenceScore := 0,
                      confidenceReason := "none",
                      ruleIdApplied := ""}
  match matchRule rules key with
  | some ru =>
    {base with categoryFinal := ru.category, categoryGroup := ru.group,
               isBillRule := ru.isBill, confidenceScore := ru.confidence,
               confidenceReason := "rule", ruleIdApplied := ru.id}
  | none =>
    match FALLBACK_CATEGORY_MAP r.monzoCategory with
    | some f =>
      {base with categoryFinal := f.1, categoryGroup := f.2.1,
                 isBillRule := f.2.2.1, confidenceScore := f.2.2.2,
                 confidenceReason := "monzo_fallback", ruleIdApplied := "fallback"}
    | none => base

/-- The known-payee map of the fuzzy pass: first-seen entries for rows
with confidence at least 0.9 and a truthy (non-empty) normalized key. -/
def knownMapOf (l : List TransactionRow) : List (String × (String × String × Bool)) :=
  l.foldl (fun acc r =>
    if decide ((0.9 : ℚ) ≤ r.confidenceScore) && !(r.payeeNormalized == "") then
      if (List.lookup r.payeeNormalized acc).isSome then acc
      else acc ++ [(r.payeeNormalized, (r.categoryFinal, r.categoryGroup, r.isBillRule))]
    else acc) []

/-- The best-match fold of the fuzzy pass: the known key with the
strictly largest similarity to the given key, starting from (null, 0). -/
def bestMatchOf (km : List (String × (String × String × Bool))) (key : String) :
    Option String × ℚ :=
  (km.map Prod.fst).foldl
    (fun acc k =>
      let s := sequenceMatcherRatio key k
      if decide (acc.2 < s) then (some k, s) else acc)
    ((none : Option String), (0 : ℚ))

/-- The fuzzy pass on one row: rows with confidence at least 0.7 or an
empty key are skipped; otherwise the best-scoring known key is adopted
when it is truthy and scores at least 0.88. -/
def fuzzyRow (km : List (String × (String × String × Bool))) (r : TransactionRow) :
    TransactionRow :=
  if decide ((0.7 : ℚ) ≤ r.confidenceScore) || r.payeeNormalized == "" then r
  else
    let best := bestMatchOf km r.payeeNormalized
    match best.1 with
    | none => r
    | some k =>
      if !(k == "") && decide ((0.88 : ℚ) ≤ best.2) then
        match List.lookup k km with
        | some e =>
          {r with categoryFinal := e.1, categoryGroup := e.2.1, isBillRule := e.2.2,
                  confidenceScore := min (0.85 : ℚ) (max (0.7 : ℚ) best.2),
                  confidenceReason := "fuzzy_payee",
                  ruleIdApplied := "fuzzy:" ++ k}
        | none => r
      else r

/-- `categorize`: the deterministic pass over every row, then, when the
known map is non-empty, the fuzzy pass over every row. -/
def categorize (rules : List Rule) (rows : List TransactionRow) : List TransactionRow :=
  let p1 := rows.map (pass1Row rules)
  let km := knownMapOf p1
  if km.isEmpty then p1 else p1.map (fuzzyRow km)

/-- `applyPayeeOverrides`: a row whose normalized key maps to a truthy
(non-empty) category in the override map is overwritten; the JS guard
`if (override)` skips entries whose value is the empty string. -/
def applyPayeeOverrides (rows : List TransactionRow) (overrides : List (String × String)) :
    List TransactionRow :=
  rows.map fun r =>
    match List.lookup r.payeeNormalized overrides with
    | some ov =>
      if ov = "" then r
      else {r with categoryFinal := ov, confidenceScore := 1,
                   confidenceReason := "user_override", ruleIdApplied := "payee_override"}
    | none => r

/-- The exclusion configuration (`exclusion_rules.json`); the
zero-amount flag is optional because the source guards it with a
strict inequality against `false`. -/
structure ExclusionConfig where
  internal_transfer_types : List String
  internal_transfer_name_patterns : List String
  exclude_zero_amount : Option Bool

/-- `applyExclusions`: optionally drop zero-amount rows, then flag a
row internal when its type is a transfer type or its lower-cased name
contains a transfer pattern, and set spend-eligibility to
(amount negative and not internal). -/
def applyExclusions (cfg : ExclusionConfig) (rows : List TransactionRow) :
    List TransactionRow :=
  let patterns := cfg.internal_transfer_name_patterns.map toLowerStr
  let excludeZero := decide (cfg.exclude_zero_amount ≠ some false)
  let result := if excludeZero then rows.filter (fun r => decide (r.amount ≠ 0)) else rows
  result.map fun r =>
    let isInternal :=
      cfg.internal_transfer_types.contains r.type ||
      patterns.any (fun p => strIncludes (toLowerStr r.name) p)
    {r with isInternalTransfer := isInternal,
            isSpend := decide (r.amount < 0) && !isInternal}

/-- `DIRECT_DEBIT_TYPES` from the source. -/
def DIRECT_DEBIT_TYPES : List String :=
  ["Direct Debit", "Faster payment", "Bacs (Direct Credit)"]

/-- The spend rows of a payee within a batch (the per-payee stats map
of the source, expressed as a filter over the batch). -/
def payeeSpendRows (rows : List TransactionRow) (payee : String) : List TransactionRow :=
  (rows.filter (·.isSpend)).filter (fun r => r.payeeNormalized == payee)

/-- The recurrence signal: the payee has spend rows in at least two
distinct months and at least two spend rows in total. -/
def recurringLike (rows : List TransactionRow) (payee : String) : Bool :=
  decide (2 ≤ (uniqueFirst ((payeeSpendRows rows payee).map (·.monthKey))).length) &&
  decide (2 ≤ (payeeSpendRows rows payee).length)

/-- Candidacy of one row within a batch: an explicit bill rule, or a
direct-debit type together with a recurring-like payee. -/
def billCandidateOf (rows : List TransactionRow) (r : TransactionRow) : Bool :=
  r.isBillRule || (DIRECT_DEBIT_TYPES.contains r.type && recurringLike rows r.payeeNormalized)

/-- The candidate-marking loop of `applyBillStatus`. -/
def markCandidates (rows : List TransactionRow) : List TransactionRow :=
  rows.map fun r => {r with isBillCandidate := billCandidateOf rows r}

/-- The latest month: last element of the sorted deduplicated month
keys of the spend rows. -/
def latestMonthOf (rows : List TransactionRow) : String :=
  (sortLeB strLe (uniqueFirst ((rows.filter (·.isSpend)).map (·.monthKey)))).getLastD ""

/-- The status-assignment loop of `applyBillStatus`, over rows whose
candidate flags are already set: non-candidates get `not_bill`; a
candidate is `active` when its payee has a candidate spend row in the
latest month, else `inactive_candidate`, degraded to `not_bill` when
the payee also has no candidate spend row in an earlier month. -/
def assignStatus (latest : String) (rows2 : List TransactionRow) : List TransactionRow :=
  let candidateSpend := rows2.filter (fun r => r.isBillCandidate && r.isSpend)
  let presentLatest :=
    (candidateSpend.filter (fun r => r.monthKey == latest)).map (·.payeeNormalized)
  let seenBefore :=
    (candidateSpend.filter (fun r => !(r.monthKey == latest))).map (·.payeeNormalized)
  rows2.map fun r =>
    if !r.isBillCandidate then {r with billStatus := "not_bill"}
    else
      let status := if presentLatest.contains r.payeeNormalized then "active"
                    else "inactive_candidate"
      let status := if status == "inactive_candidate" &&
                       !(seenBefore.contains r.payeeNormalized) then "not_bill"
                    else status
      {r with billStatus := status}

/-- The required-amount loop of `applyBillStatus`, over rows whose
statuses are already assigned.  The latest-month and historical totals
maps of the source are expressed as filtered sums over the active
spend rows. -/
def assignRequired (latest : String) (rows3 : List TransactionRow) : List TransactionRow :=
  let activeSpend := rows3.filter (fun r => r.billStatus == "active" && r.isSpend)
  rows3.map fun r =>
    if !(r.billStatus == "active") then {r with requiredAmountExact := 0}
    else
      let latestRows := activeSpend.filter
        (fun q => q.payeeNormalized == r.payeeNormalized && q.monthKey == latest)
      let allRows := activeSpend.filter (fun q => q.payeeNormalized == r.payeeNormalized)
      let required :=
        if latestRows.isEmpty then
          if allRows.isEmpty then 0
          else ((allRows.map (·.amountAbs)).sum) / (allRows.length : ℚ)
        else (latestRows.map (·.amountAbs)).sum
      {r with requiredAmountExact := required}

/-- `applyBillStatus`: with no spend rows everything is reset to
`not_bill`; otherwise candidates are marked, statuses assigned and
required amounts computed against the latest spend month. -/
def applyBillStatus (rows : List TransactionRow) : List TransactionRow :=
  if (rows.filter (·.isSpend)).isEmpty then
    rows.map fun r =>
      {r with billStatus := "not_bill", isBillCandidate := false, requiredAmountExact := 0}
  else
    let latest := latestMonthOf rows
    assignRequired latest (assignStatus latest (markCandidates rows))

/-- Models JS `parseInt` on the decimal numerals the date fields use:
skip leading whitespace, optional sign, then at least one leading
decimal digit; anything else yields NaN (none). -/
def jsParseInt (s : String) : Option Int :=
  let l := s.toList.dropWhile Char.isWhitespace
  let (sign, l) := match l with
    | '-' :: rest => ((-1 : Int), rest)
    | '+' :: rest => ((1 : Int), rest)
    | rest => ((1 : Int), rest)
  let digits := l.takeWhile Char.isDigit
  if digits.isEmpty then none
  else some (sign * (digits.foldl (fun acc c => acc * 10 + (c.toNat - 48 : Int)) 0))

/-- Models JS `parseFloat` on decimal numerals: skip leading
whitespace, optional sign, digits with an optional fractional part;
at least one digit overall, longest valid prefix. -/
def jsParseFloat (s : String) : Option ℚ :=
  let l := s.toList.dropWhile Char.isWhitespace
  let (sign, l) := match l with
    | '-' :: rest => ((-1 : ℚ), rest)
    | '+' :: rest => ((1 : ℚ), rest)
    | rest => ((1 : ℚ), rest)
  let intDigits := l.takeWhile Char.isDigit
  let l := l.dropWhile Char.isDigit
  let fracDigits := match l with
    | '.' :: rest => rest.takeWhile Char.isDigit
    | _ => []
  if intDigits.isEmpty && fracDigits.isEmpty then none
  else
    let intVal : ℚ := intDigits.foldl (fun acc c => acc * 10 + ((c.toNat - 48 : ℕ) : ℚ)) 0
    let fracVal : ℚ := (fracDigits.foldl (fun acc c => acc * 10 + ((c.toNat - 48 : ℕ) : ℚ)) 0) /
      ((10 : ℚ) ^ fracDigits.length)
    some (sign * (intVal + fracVal))

/-- Day count since the Unix epoch of a proleptic Gregorian civil date
with the month already normalized into 1..12 (the standard civil-days
computation the JS `Date` constructor realizes). -/
def daysFromCivil (y m d : Int) : Int :=
  let y := y - (if m ≤ 2 then 1 else 0)
  let era := Int.fdiv y 400
  let yoe := y - era * 400
  let mp := m + (if 2 < m then -3 else 9)
  let doy := Int.fdiv (153 * mp + 2) 5 + d - 1
  let doe := yoe * 365 + Int.fdiv yoe 4 - Int.fdiv yoe 100 + doy
  era * 146097 + doe - 719468

/-- Civil date (year, month, day) of a day count since the Unix epoch
(the computation behind `getFullYear` / `getMonth` / `getDate`). -/
def civilFromDays (z : Int) : Int × Int × Int :=
  let z := z + 719468
  let era := Int.fdiv z 146097
  let doe := z - era * 146097
  let yoe := Int.fdiv (doe - Int.fdiv doe 1460 + Int.fdiv doe 36524 - Int.fdiv doe 146096) 365
  let y := yoe + era * 400
  let doy := doe - (365 * yoe + Int.fdiv yoe 4 - Int.fdiv yoe 100)
  let mp := Int.fdiv (5 * doy + 2) 153
  let d := doy - Int.fdiv (153 * mp + 2) 5 + 1
  let m := mp + (if mp < 10 then 3 else -9)
  (y + (if m ≤ 2 then 1 else 0), m, d)

/-- `parseDateDDMMYYYY`: split on `/`, require exactly three parts with
parsable integers, and build the JS date, which maps years 0..99 to
1900..1999, carries month overflow into the year, and is invalid (NaN)
beyond one hundred million days from the epoch.  The result is the day
count of the constructed date. -/
def parseDateDDMMYYYY (dateStr : String) : Option Int :=
  match splitOnSlash dateStr with
  | [dd, mm, yyyy] =>
    match jsParseInt dd, jsParseInt mm, jsParseInt yyyy with
    | some d, some m, some y =>
      let y := if 0 ≤ y ∧ y ≤ 99 then y + 1900 else y
      let mi := m - 1
      let y2 := y + Int.fdiv mi 12
      let m2 := Int.fmod mi 12 + 1
      let days := daysFromCivil y2 m2 1 + (d - 1)
      if days.natAbs ≤ 100000000 then some days else none
    | _, _, _ => none
  | _ => none

/-- Two-digit zero padding of the month (`String.padStart(2, "0")`). -/
def pad2 (n : Int) : String :=
  let s := toString n
  if s.length < 2 then "0" ++ s else s

/-- A raw CSV row as handed over by the external CSV parser; absent
columns are `none`. -/
structure RawCsvRow where
  txId : Option String
  date : Option String
  name : Option String
  type : Option String
  amount : Option String
  category : Option String
  notes : Option String

/-- One uploaded CSV file, already split into records by the external
CSV-parsing collaborator. -/
structure CsvFile where
  rows : List RawCsvRow
  fileName : String

/-- The row-conversion body of the intake loop: rows with an
unparseable date yield nothing; otherwise the transaction record is
built from the raw fields.  The runtime-random fallback transaction id
is modelled by a fixed placeholder (no computation reads the id). -/
def rowToTransaction (idx : Nat) (fileName : String) (raw : RawCsvRow) :
    Option TransactionRow :=
  match parseDateDDMMYYYY (jsOr raw.date "") with
  | none => none
  | some days =>
    let amount := (jsParseFloat (jsOr raw.amount "0")).getD 0
    let c := civilFromDays days
    some
      { id := jsOr raw.txId "gen_id",
        name := jsOr raw.name "",
        monzoCategory := jsOr raw.category "",
        payeeNormalized := "",
        categoryFinal := "",
        categoryGroup := "",
        isBillRule := false,
        confidenceScore := 0,
        confidenceReason := "",
        ruleIdApplied := "",
        monthKey := toString c.1 ++ "-" ++ pad2 c.2.1,
        day := c.2.2,
        dateDays := days,
        type := jsOr raw.type "",
        amount := amount,
        amountAbs := |amount|,
        direction := if amount < 0 then "outflow" else "inflow",
        notes := jsOr raw.notes "",
        accountLabel := if idx = 0 then "Personal" else "Joint",
        sourceFile := fileName,
        isSpend := false,
        isInternalTransfer := false,
        isBillCandidate := false,
        billStatus := "not_bill",
        requiredAmountExact := 0,
        typicalDay := none }

/-- The file loop of the intake stage, carrying the running file index
that selects the account label. -/
def parseFilesFrom (idx : Nat) : List CsvFile → List TransactionRow
  | [] => []
  | f :: fs =>
    f.rows.filterMap (rowToTransaction idx f.fileName) ++ parseFilesFrom (idx + 1) fs

/-- `parseMonzoCsvContents`: an empty file list is a hard failure;
otherwise every file is converted, rows with unparseable dates are
dropped, and the count of surviving rows is reported. -/
def parseMonzoCsvContents (files : List CsvFile) :
    Except String (List TransactionRow × Nat) :=
  if files.isEmpty then Except.error "No CSV files provided"
  else
    let allRows := parseFilesFrom 0 files
    Except.ok (allRows, allRows.length)

/-- The number of raw rows across the batch whose date field parses. -/
def countValidRows (files : List CsvFile) : Nat :=
  (files.map (fun f =>
    f.rows.countP (fun raw => (parseDateDDMMYYYY (jsOr raw.date "")).isSome))).sum

/-- Median of a day list: sort ascending, middle element, or for even
counts the half-up rounded mean of the two middle elements. -/
def medianOf (days : List Int) : Int :=
  let sorted := sortLeB (fun a b => decide (a ≤ b)) days
  let mid := sorted.length / 2
  if sorted.length % 2 = 0 then Int.fdiv (sorted.getD (mid - 1) 0 + sorted.getD mid 0 + 1) 2
  else sorted.getD mid 0

/-- The typical day of a payee: median of the days of its active spend
rows, none when there are no such rows. -/
def typicalDayFor (rows : List TransactionRow) (p : String) : Option Int :=
  let days := ((rows.filter (fun r => r.billStatus == "active" && r.isSpend)).filter
    (fun r => r.payeeNormalized == p)).map (·.day)
  if days.isEmpty then none else some (medianOf days)

/-- The pipeline output record. -/
structure PipelineResult where
  transactions : List TransactionRow
  rawCount : Nat
  spendCount : Nat
  latestMonth : String
deriving DecidableEq

/-- `runPipelineShared`: exclusions, categorization, overrides, bill
status, typical-day assignment for active rows, and the summary
counts. -/
def runPipelineShared (cfg : ExclusionConfig) (rules : List Rule)
    (payeeOverrides : List (String × String)) (rows : List TransactionRow)
    (rawCount : Nat) : PipelineResult :=
  let excluded := applyExclusions cfg rows
  let categorized := categorize rules excluded
  let withOverrides := applyPayeeOverrides categorized payeeOverrides
  let withBills := applyBillStatus withOverrides
  let withDays := withBills.map fun r =>
    if r.billStatus == "active" then {r with typicalDay := typicalDayFor withBills r.payeeNormalized}
    else r
  let spendCount := (withDays.filter (·.isSpend)).length
  let allMonths := sortLeB strLe (uniqueFirst (withDays.map (·.monthKey)))
  { transactions := withDays,
    rawCount := rawCount,
    spendCount := spendCount,
    latestMonth := allMonths.getLastD "" }

/-- `runFullPipelineFromContent`: intake then the shared pipeline; the
intake failure on an empty batch propagates to the caller. -/
def runFullPipelineFromContent (cfg : ExclusionConfig) (rules : List Rule)
    (payeeOverrides : List (String × String)) (files : List CsvFile) :
    Except String PipelineResult :=
  match parseMonzoCsvContents files with
  | Except.error e => Except.error e
  | Except.ok pr => Except.ok (runPipelineShared cfg rules payeeOverrides pr.1 pr.2)

/-- The timeframe selector of the variable summary. -/
inductive Timeframe where
  | this_month
  | last_3
  | all
deriving DecidableEq

/-- A variable-spending summary line. -/
structure VariableCategory where
  category : String
  avgMonthly : ℚ
  avgWeekly : ℚ
  txCount : Nat
  thisMonthActual : ℚ
  target : ℚ
deriving DecidableEq

/-- Rounding to two decimals as `Math.round(x * 100) / 100` does:
half rounds toward positive infinity. -/
def round2 (x : ℚ) : ℚ :=
  ((⌊x * 100 + 1 / 2⌋ : ℤ) : ℚ) / 100

/-- `buildVariableSummary`: filter to non-bill, non-internal spend
rows, restrict by timeframe, group by final category and emit the
rounded monthly and weekly averages, the latest-month actual and the
default target, sorted by average monthly spend descending. -/
def buildVariableSummary (transactions : List TransactionRow) (timeframe : Timeframe) :
    List VariableCategory :=
  let base := transactions.filter
    (fun t => t.isSpend && !(t.billStatus == "active") && !t.isInternalTransfer)
  if base.isEmpty then []
  else
    let allMonths := sortLeB strLe (uniqueFirst (base.map (·.monthKey)))
    let latestMonth := allMonths.getLastD ""
    let base2 : List TransactionRow := match timeframe with
      | Timeframe.this_month => base.filter (fun t => t.monthKey == latestMonth)
      | Timeframe.last_3 =>
        let keep := allMonths.drop (allMonths.length - 3)
        base.filter (fun t => keep.contains t.monthKey)
      | Timeframe.all => base
    if base2.isEmpty then []
    else
      let filteredMonths := uniqueFirst (base2.map (·.monthKey))
      let monthCount : ℚ := max 1 (filteredMonths.length : ℚ)
      let dates := base2.map (fun t => (t.dateDays * 86400000 : ℚ))
      let minDate := dates.foldl min (dates.getD 0 0)
      let maxDate := dates.foldl max (dates.getD 0 0)
      let daySpan : ℚ := max 1 ((maxDate - minDate) / 86400000 + 1)
      let weekCount : ℚ := max 1 (daySpan / 7)
      let cats := uniqueFirst (base2.map (·.categoryFinal))
      let results := cats.map fun c =>
        let grp := base2.filter (fun t => t.categoryFinal == c)
        let totalSpend := (grp.map (·.amountAbs)).sum
        let thisTotal :=
          ((base2.filter (fun t => t.monthKey == latestMonth)).filter
            (fun t => t.categoryFinal == c)).map (·.amountAbs) |>.sum
        { category := c,
          avgMonthly := round2 (totalSpend / monthCount),
          avgWeekly := round2 (totalSpend / weekCount),
          txCount := grp.length,
          thisMonthActual := round2 thisTotal,
          target := round2 (totalSpend / weekCount) }
      sortLeB (fun a b => decide (b.avgMonthly ≤ a.avgMonthly)) results

/-- A small exclusion configuration used in concrete instantiations. -/
def exCfg : ExclusionConfig where
  internal_transfer_types := ["Pot transfer"]
  internal_transfer_name_patterns := ["transfer"]
  exclude_zero_amount := none

/-- A concrete rule whose pattern accepts exactly one key. -/
def exRule : Rule where
  id := "r1"
  pattern := fun s => s == "aaaaaaaab"
  category := "Streaming"
  group := "required_bill"
  isBill := true
  confidence := 0.95

/-- A rule whose pattern accepts nothing. -/
def exRuleNever : Rule where
  id := "r0"
  pattern := fun _ => false
  category := "Nothing"
  group := "variable"
  isBill := false
  confidence := 0.9

/-- A bill-candidate spend row in month 2024-01 (explicit bill rule). -/
def exRowBill : TransactionRow := {row0 with
  name := "A", payeeNormalized := "p", isSpend := true, monthKey := "2024-01",
  isBillRule := true, type := "Card payment", amount := -10, amountAbs := 10}

/-- A non-candidate spend row of the same payee and month. -/
def exRowOther : TransactionRow := {row0 with
  name := "B", payeeNormalized := "p", isSpend := true, monthKey := "2024-01",
  isBillRule := false, type := "Card payment", amount := -5, amountAbs := 5}

/-- A direct-debit spend row of a payee seen in 2023-12. -/
def exRowDD1 : TransactionRow := {row0 with
  name := "E", payeeNormalized := "z", isSpend := true, monthKey := "2023-12",
  type := "Direct Debit", amount := -4, amountAbs := 4}

/-- A direct-debit spend row of the same payee in 2024-01. -/
def exRowDD2 : TransactionRow := {row0 with
  name := "E", payeeNormalized := "z", isSpend := true, monthKey := "2024-01",
  type := "Direct Debit", amount := -4, amountAbs := 4}

/-- A row matched by `exRule` with high confidence. -/
def exRowKnown : TransactionRow := {row0 with name := "AAAAAAAAB"}

/-- A near-duplicate row no rule or fallback matches. -/
def exRowFuzzy : TransactionRow := {row0 with name := "AAAAAAAAC"}

/-- A CSV file whose only row has an unparseable (empty) date. -/
def exCsvBad : CsvFile where
  rows := [{ txId := none, date := some "", name := some "x", type := none,
             amount := some "-1.50", category := none, notes := none }]
  fileName := "a.csv"

/-- A categorized row keyed `x` with a mid-band confidence. -/
def exRowOverride : TransactionRow := {row0 with
  payeeNormalized := "x", categoryFinal := "C", categoryGroup := "variable",
  confidenceScore := 0.55, confidenceReason := "monzo_fallback"}

/-- Variable-spend rows across two months and two categories. -/
def exVarRow1 : TransactionRow := {row0 with
  isSpend := true, monthKey := "2024-01", categoryFinal := "Groc",
  amount := -10, amountAbs := 10, dateDays := 100}

def exVarRow2 : TransactionRow := {row0 with
  isSpend := true, monthKey := "2024-02", categoryFinal := "Groc",
  amount := -7, amountAbs := 7, dateDays := 131}

def exVarRow3 : TransactionRow := {row0 with
  isSpend := true, monthKey := "2024-02", categoryFinal := "Fun",
  amount := -3, amountAbs := 3, dateDays := 140}

/-- A plain negative-amount row. -/
def exRowSpend : TransactionRow := {row0 with name := "shop", amount := -3, amountAbs := 3}

/-- The spend-eligibility invariant: a row is spend-eligible exactly
when its amount is negative and it is not an internal transfer. -/
def spendInvariant (rs : List TransactionRow) : Prop :=
  ∀ r ∈ rs, r.isSpend = (decide (r.amount < 0) && !r.isInternalTransfer)

/-! ## Helper lemmas -/

theorem lcsAux_congr : ∀ f1 f2 (xs ys : List Char),
    xs.length + ys.length ≤ f1 → xs.length + ys.length ≤ f2 →
    lcsAux f1 xs ys = lcsAux f2 xs ys := by
  intro f1
  induction f1 with
  | zero =>
    intro f2 xs ys h1 h2
    have hx : xs = [] := by cases xs <;> simp_all <;> omega
    have hy : ys = [] := by cases ys <;> simp_all <;> omega
    subst hx; subst hy
    cases f2 <;> simp [lcsAux]
  | succ f ih =>
    intro f2 xs ys h1 h2
    cases f2 with
    | zero =>
      have hx : xs = [] := by cases xs <;> simp_all <;> omega
      have hy : ys = [] := by cases ys <;> simp_all <;> omega
      subst hx; subst hy; simp [lcsAux]
    | succ g =>
      cases xs with
      | nil => simp [lcsAux]
      | cons a as =>
        cases ys with
        | nil => simp [lcsAux]
        | cons b bs =>
          simp only [lcsAux]
          by_cases hab : a = b
          · simp only [if_pos hab]
            have := ih g as bs (by simp at h1 ⊢; omega) (by simp at h2 ⊢; omega)
            omega
          · simp only [if_neg hab]
            have e1 := ih g (a :: as) bs (by simp at h1 ⊢; omega) (by simp at h2 ⊢; omega)
            have e2 := ih g as (b :: bs) (by simp at h1 ⊢; omega) (by simp at h2 ⊢; omega)
            omega

theorem lcsLen_nil_left (ys : List Char) : lcsLen [] ys = 0 := by
  cases ys <;> simp [lcsLen, lcsAux]

theorem lcsLen_nil_right (xs : List Char) : lcsLen xs [] = 0 := by
  cases xs <;> simp [lcsLen, lcsAux]

theorem lcsLen_cons_cons (a b : Char) (as bs : List Char) :
    lcsLen (a :: as) (b :: bs) =
      if a = b then lcsLen as bs + 1
      else max (lcsLen (a :: as) bs) (lcsLen as (b :: bs)) := by
  unfold lcsLen
  simp only [List.length_cons]
  have e0 : as.length + 1 + (bs.length + 1) = as.length + bs.length + 2 := by omega
  rw [e0]
  show lcsAux (as.length + bs.length + 1 + 1) (a :: as) (b :: bs) = _
  simp only [lcsAux]
  by_cases hab : a = b
  · simp only [if_pos hab]
    rw [lcsAux_congr (as.length + bs.length + 1) (as.length + bs.length) as bs
      (by omega) (by omega)]
  · simp only [if_neg hab]
    rw [lcsAux_congr (as.length + bs.length + 1) ((a :: as).length + bs.length) (a :: as) bs
      (by simp; omega) (by simp),
      lcsAux_congr (as.length + bs.length + 1) (as.length + (b :: bs).length) as (b :: bs)
      (by simp; omega) (by simp)]
    simp

theorem lcsLen_comm (xs ys : List Char) : lcsLen xs ys = lcsLen ys xs := by
  suffices h : ∀ n (xs ys : List Char), xs.length + ys.length = n →
      lcsLen xs ys = lcsLen ys xs by exact h _ xs ys rfl
  intro n
  induction n using Nat.strong_induction_on with
  | _ n ih =>
    intro xs ys hn
    cases xs with
    | nil => rw [lcsLen_nil_left, lcsLen_nil_right]
    | cons a as =>
      cases ys with
      | nil => rw [lcsLen_nil_left, lcsLen_nil_right]
      | cons b bs =>
        rw [lcsLen_cons_cons, lcsLen_cons_cons]
        by_cases hab : a = b
        · subst hab
          rw [if_pos rfl, if_pos rfl,
            ih (as.length + bs.length) (by simp at hn; omega) as bs rfl]
        · rw [if_neg hab, if_neg (fun h => hab h.symm),
            ih ((a :: as).length + bs.length) (by simp at hn ⊢; omega) (a :: as) bs rfl,
            ih (as.length + (b :: bs).length) (by simp at hn ⊢; omega) as (b :: bs) rfl,
            Nat.max_comm]

theorem lcsLen_self (xs : List Char) : lcsLen xs xs = xs.length := by
  induction xs with
  | nil => rw [lcsLen_nil_left]; rfl
  | cons a as ih => rw [lcsLen_cons_cons, if_pos rfl, ih]; rfl

theorem string_toList_length (s : String) : s.toList.length = s.length := rfl

theorem string_length_ne_zero {s : String} (h : s ≠ "") : s.length ≠ 0 := by
  cases s with
  | mk data =>
    cases data with
    | nil => exact absurd rfl h
    | cons c cs => simp [String.length]

/-! ## Claim C9 -/

/-- C9 counterexample: the claim says a pair in which either string is
empty scores 0.0 and that the ratio always equals 2L over the total
length, but on the pair of two empty strings the equality branch fires
first and the function returns 1, while the formula value is 0. -/
theorem sequenceMatcherRatio_claim_counterexample :
    sequenceMatcherRatio "" "" = 1 ∧
    sequenceMatcherRatio "" "" ≠
      2 * (lcsLen "".toList "".toList : ℚ) / (("".length : ℚ) + ("".length : ℚ)) := by
  constructor
  · rfl
  · have h0 : "".toList = ([] : List Char) := rfl
    rw [h0, lcsLen_nil_left]
    show (1 : ℚ) ≠ _
    norm_num

/-- C9 amended: the LCS-ratio formula holds for every pair except the
two empty strings (which score 1 through the equality branch); the
ratio is symmetric; identical strings score 1; and a pair with exactly
one empty side scores 0. -/
theorem sequenceMatcherRatio_amended :
    (∀ a b : String, ¬(a = "" ∧ b = "") →
      sequenceMatcherRatio a b =
        2 * (lcsLen a.toList b.toList : ℚ) / ((a.length : ℚ) + (b.length : ℚ))) ∧
    (∀ a b : String, sequenceMatcherRatio a b = sequenceMatcherRatio b a) ∧
    (∀ a : String, sequenceMatcherRatio a a = 1) ∧
    (∀ a : String, a ≠ "" → sequenceMatcherRatio "" a = 0 ∧ sequenceMatcherRatio a "" = 0) := by
  have hformula : ∀ a b : String, ¬(a = "" ∧ b = "") →
      sequenceMatcherRatio a b =
        2 * (lcsLen a.toList b.toList : ℚ) / ((a.length : ℚ) + (b.length : ℚ)) := by
    intro a b h
    simp only [sequenceMatcherRatio]
    by_cases hab : a = b
    · subst hab
      have ha : a ≠ "" := fun h0 => h ⟨h0, h0⟩
      rw [if_pos rfl, lcsLen_self, string_toList_length]
      have hn : (a.length : ℚ) ≠ 0 := by
        exact_mod_cast Nat.cast_ne_zero.mpr (string_length_ne_zero ha)
      field_simp
      ring
    · rw [if_neg hab]
      by_cases he : a = "" ∨ b = ""
      · rw [if_pos he]
        rcases he with h1 | h1
        · subst h1
          have h0 : "".toList = ([] : List Char) := rfl
          rw [h0, lcsLen_nil_left]; norm_num
        · subst h1
          have h0 : "".toList = ([] : List Char) := rfl
          rw [h0, lcsLen_nil_right]; norm_num
      · rw [if_neg he]
        push_neg at he
        obtain ⟨ha, hb⟩ := he
        by_cases hl : a.length > b.length
        · simp only [if_pos hl]
          have hne : ¬(a.length = 0) := string_length_ne_zero ha
          rw [if_neg hne, lcsLen_comm, add_comm ((b.length : ℚ)) ((a.length : ℚ))]
        · simp only [if_neg hl]
          have hne : ¬(b.length = 0) := string_length_ne_zero hb
          rw [if_neg hne]
  refine ⟨hformula, ?_, ?_, ?_⟩
  · intro a b
    by_cases hboth : a = "" ∧ b = ""
    · obtain ⟨h1, h2⟩ := hboth; subst h1; subst h2; rfl
    · have hboth2 : ¬(b = "" ∧ a = "") := fun h => hboth ⟨h.2, h.1⟩
      rw [hformula a b hboth, hformula b a hboth2, lcsLen_comm,
        add_comm ((a.length : ℚ)) ((b.length : ℚ))]
  · intro a
    simp [sequenceMatcherRatio]
  · intro a ha
    have ha2 : "" ≠ a := fun h => ha h.symm
    constructor
    · simp [sequenceMatcherRatio, ha2]
    · simp [sequenceMatcherRatio, ha]

/-- C9 witness: the amended theorem applied to the concrete pairs
("ab","b") and ("", "x"); the first ratio evaluates to 2/3. -/
theorem sequenceMatcherRatio_amended_witness :
    sequenceMatcherRatio "ab" "b" =
      2 * (lcsLen "ab".toList "b".toList : ℚ) / (("ab".length : ℚ) + ("b".length : ℚ)) ∧
    sequenceMatcherRatio "ab" "b" = sequenceMatcherRatio "b" "ab" ∧
    sequenceMatcherRatio "" "x" = 0 ∧
    sequenceMatcherRatio "ab" "b" = 2 / 3 :=
  ⟨sequenceMatcherRatio_amended.1 "ab" "b" (by simp),
   sequenceMatcherRatio_amended.2.1 "ab" "b",
   (sequenceMatcherRatio_amended.2.2.2 "x" (by simp)).1,
   by simp +decide [sequenceMatcherRatio, lcsLen, lcsAux, String.length]; norm_num⟩

/-! ## Claim C8 -/

/-- C8: rule matching returns the first rule in the supplied order
whose pattern accepts the key — whenever it returns a rule, that rule
matches and every earlier rule does not (so of two matching rules the
earlier governs); it returns none exactly when no rule matches; and
whenever some rule matches, a rule is returned. -/
theorem matchRule_first_match_spec (rules : List Rule) (key : String) :
    (∀ r, matchRule rules key = some r →
      r.pattern key = true ∧
      ∃ i, ∃ h : i < rules.length, rules.get ⟨i, h⟩ = r ∧
        ∀ j (hj : j < rules.length), j < i → (rules.get ⟨j, hj⟩).pattern key = false) ∧
    (matchRule rules key = none ↔ ∀ r ∈ rules, r.pattern key = false) ∧
    (∀ i (h : i < rules.length), (rules.get ⟨i, h⟩).pattern key = true →
      ∃ r, matchRule rules key = some r) := by
  induction rules with
  | nil =>
    refine ⟨?_, ?_, ?_⟩
    · intro r hr; simp [matchRule] at hr
    · simp [matchRule]
    · intro i h; simp at h
  | cons a l ih =>
    by_cases hpa : a.pattern key = true
    · refine ⟨?_, ?_, ?_⟩
      · intro r hr
        rw [matchRule, List.find?_cons_of_pos (p := fun ru : Rule => ru.pattern key) _ hpa] at hr
        obtain rfl : a = r := by injection hr
        exact ⟨hpa, 0, by simp, rfl, fun j hj hj0 => absurd hj0 (Nat.not_lt_zero j)⟩
      · rw [matchRule, List.find?_cons_of_pos (p := fun ru : Rule => ru.pattern key) _ hpa]
        simp only [false_iff, reduceCtorEq]
        intro hall
        exact absurd (hall a (List.mem_cons_self a l)) (by simp [hpa])
      · intro i h hp
        exact ⟨a, by rw [matchRule, List.find?_cons_of_pos (p := fun ru : Rule => ru.pattern key) _ hpa]⟩
    · have hpa2 : a.pattern key = false := by
        cases hq : a.pattern key
        · rfl
        · exact absurd hq hpa
      refine ⟨?_, ?_, ?_⟩
      · intro r hr
        rw [matchRule, List.find?_cons_of_neg (p := fun ru : Rule => ru.pattern key) _ (by simp [hpa2])] at hr
        obtain ⟨hp, i, hi, hget, hmin⟩ := ih.1 r hr
        refine ⟨hp, i + 1, by simpa using Nat.succ_lt_succ hi, by simpa using hget, ?_⟩
        intro j hj hj1
        cases j with
        | zero => simpa using hpa2
        | succ k =>
          have hk : k < l.length := by simp at hj; omega
          have := hmin k hk (by omega)
          simpa using this
      · rw [matchRule, List.find?_cons_of_neg (p := fun ru : Rule => ru.pattern key) _ (by simp [hpa2])]
        rw [show (List.find? (fun ru => ru.pattern key) l = none) ↔
          (matchRule l key = none) from Iff.rfl, ih.2.1]
        constructor
        · intro hall r hr
          rcases List.mem_cons.mp hr with h1 | h1
          · subst h1; exact hpa2
          · exact hall r h1
        · intro hall r hr
          exact hall r (List.mem_cons_of_mem a hr)
      · intro i h hp
        cases i with
        | zero => exact absurd (by simpa using hp) hpa
        | succ k =>
          have hk : k < l.length := by simp at h; omega
          obtain ⟨r, hr⟩ := ih.2.2 k hk (by simpa using hp)
          exact ⟨r, by rw [matchRule, List.find?_cons_of_neg (p := fun ru : Rule => ru.pattern key) _ (by simp [hpa2])]; exact hr⟩

/-- C8 witness: on the concrete rule list where only the second rule
matches the key, the specification yields a returned rule, and on a
key no rule matches the match is none. -/
theorem matchRule_first_match_witness :
    (∃ r, matchRule [exRuleNever, exRule] "aaaaaaaab" = some r) ∧
    matchRule [exRuleNever] "zzz" = none :=
  ⟨(matchRule_first_match_spec [exRuleNever, exRule] "aaaaaaaab").2.2 1 (by simp)
      (by decide),
   (matchRule_first_match_spec [exRuleNever] "zzz").2.1.mpr
      (by intro r hr; simp at hr; subst hr; rfl)⟩

/-! ## Claim C6 -/

/-- C6 counterexample: a row whose key is present in the override map
but mapped to the empty string is left unchanged — the JS guard
`if (override)` is falsy on the empty string — contradicting the
claimed unconditional overwrite for every key present in the map. -/
theorem applyPayeeOverrides_claim_counterexample :
    (List.lookup exRowOverride.payeeNormalized [("x", "")]).isSome = true ∧
    applyPayeeOverrides [exRowOverride] [("x", "")] = [exRowOverride] ∧
    exRowOverride.confidenceScore ≠ 1 ∧
    exRowOverride.confidenceReason ≠ "user_override" := by
  refine ⟨by decide, ?_, ?_, by decide⟩
  · simp +decide [applyPayeeOverrides, List.lookup, exRowOverride, row0]
  · simp [exRowOverride, row0]
    norm_num

/-- C6 amended: a row whose normalized key maps to a non-empty
category in the override map is unconditionally overwritten (category,
confidence 1.0, reason `user_override`, rule id `payee_override`),
regardless of previously assigned fields; a row whose key is absent,
or maps to the empty string, is left unchanged. -/
theorem applyPayeeOverrides_amended (rows : List TransactionRow)
    (overrides : List (String × String)) :
    (applyPayeeOverrides rows overrides).length = rows.length ∧
    ∀ i (h : i < rows.length) (h2 : i < (applyPayeeOverrides rows overrides).length),
      (∀ c, List.lookup (rows.get ⟨i, h⟩).payeeNormalized overrides = some c → c ≠ "" →
        (applyPayeeOverrides rows overrides).get ⟨i, h2⟩ =
          {rows.get ⟨i, h⟩ with
            categoryFinal := c, confidenceScore := 1,
            confidenceReason := "user_override", ruleIdApplied := "payee_override"}) ∧
      (List.lookup (rows.get ⟨i, h⟩).payeeNormalized overrides = none →
        (applyPayeeOverrides rows overrides).get ⟨i, h2⟩ = rows.get ⟨i, h⟩) ∧
      (List.lookup (rows.get ⟨i, h⟩).payeeNormalized overrides = some "" →
        (applyPayeeOverrides rows overrides).get ⟨i, h2⟩ = rows.get ⟨i, h⟩) := by
  refine ⟨by simp [applyPayeeOverrides], ?_⟩
  intro i h h2
  refine ⟨?_, ?_, ?_⟩
  · intro c hc hne
    simp only [List.get_eq_getElem] at hc ⊢
    simp only [applyPayeeOverrides, List.getElem_map, hc]
    rw [if_neg hne]
  · intro hc
    simp only [List.get_eq_getElem] at hc ⊢
    simp only [applyPayeeOverrides, List.getElem_map, hc]
  · intro hc
    simp only [List.get_eq_getElem] at hc ⊢
    simp only [applyPayeeOverrides, List.getElem_map, hc]
    simp

/-- C6 witness: the amended theorem applied to a concrete row with a
non-empty override, yielding the overwritten record. -/
theorem applyPayeeOverrides_amended_witness :
    (applyPayeeOverrides [exRowOverride] [("x", "New")]).get
        ⟨0, by simp [applyPayeeOverrides]⟩ =
      {exRowOverride with
        categoryFinal := "New", confidenceScore := 1,
        confidenceReason := "user_override", ruleIdApplied := "payee_override"} :=
  ((applyPayeeOverrides_amended [exRowOverride] [("x", "New")]).2 0 (by simp)
    (by simp [applyPayeeOverrides])).1 "New" (by decide) (by decide)

/-! ## Claim C7 -/

theorem pass1Row_core_fields (rules : List Rule) (r : TransactionRow) :
    (pass1Row rules r).isSpend = r.isSpend ∧ (pass1Row rules r).amount = r.amount ∧
    (pass1Row rules r).isInternalTransfer = r.isInternalTransfer := by
  cases hm : matchRule rules (normalizePayee r.name) with
  | some ru => simp [pass1Row, hm]
  | none =>
    cases hf : FALLBACK_CATEGORY_MAP r.monzoCategory with
    | some f => simp [pass1Row, hm, hf]
    | none => simp [pass1Row, hm, hf]

theorem fuzzyRow_core_fields (km : List (String × (String × String × Bool)))
    (r : TransactionRow) :
    (fuzzyRow km r).isSpend = r.isSpend ∧ (fuzzyRow km r).amount = r.amount ∧
    (fuzzyRow km r).isInternalTransfer = r.isInternalTransfer := by
  refine ⟨?_, ?_, ?_⟩
  all_goals simp only [fuzzyRow]
  all_goals repeat' split
  all_goals rfl

theorem spendInvariant_of_core_fields {rs rs' : List TransactionRow}
    (hinv : spendInvariant rs)
    (h : ∀ r' ∈ rs', ∃ r ∈ rs, r'.isSpend = r.isSpend ∧ r'.amount = r.amount ∧
      r'.isInternalTransfer = r.isInternalTransfer) : spendInvariant rs' := by
  intro r' hr'
  obtain ⟨r, hr, h1, h2, h3⟩ := h r' hr'
  rw [h1, h2, h3]
  exact hinv r hr

theorem spendInvariant_map {rs : List TransactionRow} {f : TransactionRow → TransactionRow}
    (hinv : spendInvariant rs)
    (hf : ∀ r, (f r).isSpend = r.isSpend ∧ (f r).amount = r.amount ∧
      (f r).isInternalTransfer = r.isInternalTransfer) : spendInvariant (rs.map f) := by
  refine spendInvariant_of_core_fields hinv ?_
  intro r' hr'
  obtain ⟨r, hr, rfl⟩ := List.mem_map.mp hr'
  exact ⟨r, hr, (hf r).1, (hf r).2.1, (hf r).2.2⟩

/-- C7: after the exclusion stage every transaction satisfies
isSpend = (amount < 0 and not internal), and each later stage of the
pipeline (categorization, overrides, bill status) preserves that
invariant on any batch satisfying it. -/
theorem pipeline_spend_invariant (cfg : ExclusionConfig) (rules : List Rule)
    (overrides : List (String × String)) (rows : List TransactionRow) :
    spendInvariant (applyExclusions cfg rows) ∧
    (∀ rs, spendInvariant rs → spendInvariant (categorize rules rs)) ∧
    (∀ rs, spendInvariant rs → spendInvariant (applyPayeeOverrides rs overrides)) ∧
    (∀ rs, spendInvariant rs → spendInvariant (applyBillStatus rs)) := by
  refine ⟨?_, ?_, ?_, ?_⟩
  · intro r' hr'
    unfold applyExclusions at hr'
    obtain ⟨r, hr, rfl⟩ := List.mem_map.mp hr'
    rfl
  · intro rs hinv
    simp only [categorize]
    split
    · exact spendInvariant_map hinv (pass1Row_core_fields rules)
    · rw [List.map_map]
      refine spendInvariant_map hinv ?_
      intro r
      obtain ⟨h1, h2, h3⟩ := fuzzyRow_core_fields (knownMapOf (rs.map (pass1Row rules)))
        (pass1Row rules r)
      obtain ⟨g1, g2, g3⟩ := pass1Row_core_fields rules r
      exact ⟨h1.trans g1, h2.trans g2, h3.trans g3⟩
  · intro rs hinv
    unfold applyPayeeOverrides
    refine spendInvariant_map hinv ?_
    intro r
    cases hl : List.lookup r.payeeNormalized overrides with
    | none => simp [hl]
    | some ov =>
      by_cases hov : ov = ""
      · simp [hl, hov]
      · simp [hl, hov]
  · intro rs hinv
    have hmark : ∀ rs2, spendInvariant rs2 → spendInvariant (markCandidates rs2) := by
      intro rs2 h2
      simp only [markCandidates]
      exact spendInvariant_map h2 (fun r => ⟨rfl, rfl, rfl⟩)
    have hstat : ∀ latest rs2, spendInvariant rs2 →
        spendInvariant (assignStatus latest rs2) := by
      intro latest rs2 h2
      simp only [assignStatus]
      refine spendInvariant_map h2 ?_
      intro r
      refine ⟨?_, ?_, ?_⟩
      all_goals split
      all_goals rfl
    have hreq : ∀ latest rs2, spendInvariant rs2 →
        spendInvariant (assignRequired latest rs2) := by
      intro latest rs2 h2
      simp only [assignRequired]
      refine spendInvariant_map h2 ?_
      intro r
      refine ⟨?_, ?_, ?_⟩
      all_goals split
      all_goals rfl
    unfold applyBillStatus
    split
    · exact spendInvariant_map hinv (fun r => ⟨rfl, rfl, rfl⟩)
    · exact hreq _ _ (hstat _ _ (hmark _ hinv))

/-- C7 witness: on a concrete one-row batch the exclusion stage yields
a row whose spend flag equals the claimed conjunction, and that flag
is true for the negative-amount non-transfer row. -/
theorem pipeline_spend_invariant_witness :
    ((applyExclusions exCfg [exRowSpend]).getD 0 row0).isSpend =
      (decide (((applyExclusions exCfg [exRowSpend]).getD 0 row0).amount < 0) &&
       !((applyExclusions exCfg [exRowSpend]).getD 0 row0).isInternalTransfer) ∧
    ((applyExclusions exCfg [exRowSpend]).getD 0 row0).isSpend = true := by
  constructor
  · refine (pipeline_spend_invariant exCfg [] [] [exRowSpend]).1 _ ?_
    simp +decide [applyExclusions, exCfg, exRowSpend, row0, strIncludes, listIsInfix,
      toLowerStr, jsTrim]
  · simp +decide [applyExclusions, exCfg, exRowSpend, row0, strIncludes, listIsInfix,
      toLowerStr, jsTrim]

/-! ## Claim C5 -/

theorem length_filterMap_eq_countP (g : α → Option β) (l : List α) :
    (l.filterMap g).length = l.countP (fun x => (g x).isSome) := by
  induction l with
  | nil => rfl
  | cons a t ih => cases hg : g a <;> simp [List.filterMap_cons, hg, List.countP_cons, ih]

theorem rowToTransaction_isSome (idx : Nat) (fn : String) (raw : RawCsvRow) :
    (rowToTransaction idx fn raw).isSome = (parseDateDDMMYYYY (jsOr raw.date "")).isSome := by
  cases hd : parseDateDDMMYYYY (jsOr raw.date "") <;> simp [rowToTransaction, hd]

theorem parseFilesFrom_length : ∀ (idx : Nat) (files : List CsvFile),
    (parseFilesFrom idx files).length = countValidRows files := by
  intro idx files
  induction files generalizing idx with
  | nil => rfl
  | cons f fs ih =>
    simp only [parseFilesFrom, List.length_append, countValidRows, List.map_cons,
      List.sum_cons]
    rw [length_filterMap_eq_countP, ih (idx + 1),
      List.countP_congr (fun x _ => by rw [rowToTransaction_isSome idx f.fileName x])]
    rfl

/-- C5 counterexample: a batch of one CSV file whose only row has an
unparseable date yields zero valid source rows, yet the pipeline runs
to completion and returns an empty ok result instead of surfacing a
hard failure. -/
theorem pipeline_zero_valid_rows_counterexample :
    countValidRows [exCsvBad] = 0 ∧
    runFullPipelineFromContent exCfg [] [] [exCsvBad] =
      Except.ok { transactions := [], rawCount := 0, spendCount := 0, latestMonth := "" } := by
  constructor
  · rfl
  · rfl

/-- C5 amended: the intake stage fails hard exactly when the list of
CSV files is empty; given at least one file the pipeline always
succeeds, individual rows with unparseable dates are dropped silently,
and the reported raw count is the number of rows whose date parses —
a batch with files but zero valid rows produces an empty ok output. -/
theorem pipeline_error_amended (cfg : ExclusionConfig) (rules : List Rule)
    (overrides : List (String × String)) (files : List CsvFile) :
    (files = [] → runFullPipelineFromContent cfg rules overrides files =
      Except.error "No CSV files provided") ∧
    (files ≠ [] → ∃ res : PipelineResult,
      runFullPipelineFromContent cfg rules overrides files = Except.ok res ∧
      res.rawCount = countValidRows files) := by
  constructor
  · intro h
    subst h
    rfl
  · intro h
    cases files with
    | nil => exact absurd rfl h
    | cons f fs =>
      refine ⟨runPipelineShared cfg rules overrides (parseFilesFrom 0 (f :: fs))
        (parseFilesFrom 0 (f :: fs)).length, ?_, ?_⟩
      · rfl
      · show (parseFilesFrom 0 (f :: fs)).length = _
        exact parseFilesFrom_length 0 (f :: fs)

/-- C5 witness: the amended theorem applied to the empty batch and to
the concrete one-file batch with an unparseable date. -/
theorem pipeline_error_amended_witness :
    runFullPipelineFromContent exCfg [] [] [] = Except.error "No CSV files provided" ∧
    ∃ res : PipelineResult,
      runFullPipelineFromContent exCfg [] [] [exCsvBad] = Except.ok res ∧
      res.rawCount = countValidRows [exCsvBad] :=
  ⟨(pipeline_error_amended exCfg [] [] []).1 rfl,
   (pipeline_error_amended exCfg [] [] [exCsvBad]).2 (by simp)⟩

/-! ## Claim C10 -/

theorem mem_uniqueFirstAux [DecidableEq α] {x : α} :
    ∀ {seen : List α} {l : List α}, x ∈ uniqueFirstAux seen l ↔ (x ∈ l ∧ x ∉ seen) := by
  intro seen l
  induction l generalizing seen with
  | nil => simp [uniqueFirstAux]
  | cons a t ih =>
    simp only [uniqueFirstAux]
    by_cases ha : a ∈ seen
    · rw [if_pos ha, ih]
      constructor
      · intro ⟨h1, h2⟩
        exact ⟨List.mem_cons_of_mem a h1, h2⟩
      · intro ⟨h1, h2⟩
        rcases List.mem_cons.mp h1 with h3 | h3
        · subst h3; exact absurd ha h2
        · exact ⟨h3, h2⟩
    · rw [if_neg ha]
      simp only [List.mem_cons, ih]
      constructor
      · intro h
        rcases h with h1 | ⟨h1, h2⟩
        · subst h1
          exact ⟨Or.inl rfl, ha⟩
        · refine ⟨Or.inr h1, fun hx => h2 (Or.inr hx)⟩
      · intro ⟨h1, h2⟩
        rcases h1 with h3 | h3
        · exact Or.inl h3
        · by_cases hxa : x = a
          · exact Or.inl hxa
          · exact Or.inr ⟨h3, fun hx => by
              rcases hx with h4 | h4
              · exact hxa h4
              · exact h2 h4⟩

theorem mem_uniqueFirst [DecidableEq α] {x : α} {l : List α} :
    x ∈ uniqueFirst l ↔ x ∈ l := by
  rw [uniqueFirst, mem_uniqueFirstAux]
  simp

theorem uniqueFirstAux_eq_nil [DecidableEq α] {seen : List α} :
    ∀ {l : List α}, (∀ x ∈ l, x ∈ seen) → uniqueFirstAux seen l = [] := by
  intro l
  induction l with
  | nil => intro _; rfl
  | cons a t ih =>
    intro h
    simp only [uniqueFirstAux, if_pos (h a (List.mem_cons_self a t))]
    exact ih (fun x hx => h x (List.mem_cons_of_mem a hx))

theorem uniqueFirst_all_eq [DecidableEq α] {l : List α} {c : α}
    (hne : l ≠ []) (h : ∀ x ∈ l, x = c) : uniqueFirst l = [c] := by
  cases l with
  | nil => exact absurd rfl hne
  | cons a t =>
    have ha : a = c := h a (List.mem_cons_self a t)
    subst ha
    show uniqueFirstAux [] (a :: t) = [a]
    simp only [uniqueFirstAux, List.not_mem_nil, if_neg (fun hx => hx)]
    rw [uniqueFirstAux_eq_nil]
    intro x hx
    rw [h x (List.mem_cons_of_mem a hx)]
    exact List.mem_cons_self a []

theorem mem_insertLeB {le : α → α → Bool} {x y : α} :
    ∀ {l : List α}, x ∈ insertLeB le y l ↔ x = y ∨ x ∈ l := by
  intro l
  induction l with
  | nil => simp [insertLeB]
  | cons a t ih =>
    simp only [insertLeB]
    by_cases hle : le y a
    · rw [if_pos hle]
      simp
    · rw [if_neg hle]
      simp only [List.mem_cons, ih]
      tauto

theorem mem_sortLeB {le : α → α → Bool} {x : α} :
    ∀ {l : List α}, x ∈ sortLeB le l ↔ x ∈ l := by
  intro l
  induction l with
  | nil => simp [sortLeB]
  | cons a t ih =>
    show x ∈ insertLeB le a (sortLeB le t) ↔ _
    rw [mem_insertLeB]
    simp only [List.mem_cons]
    rw [ih]

theorem varSummaryRow_eq (b2 : List TransactionRow) (lm c : String)
    (hall : ∀ t ∈ b2, t.monthKey = lm) (hne : b2 ≠ []) :
    round2 ((((b2.filter (fun t => t.categoryFinal == c)).map (·.amountAbs)).sum) /
      (max 1 (((uniqueFirst (b2.map (·.monthKey))).length : ℚ)))) =
    round2 ((((b2.filter (fun t => t.monthKey == lm)).filter
      (fun t => t.categoryFinal == c)).map (·.amountAbs)).sum) := by
  have h1 : b2.filter (fun t => t.monthKey == lm) = b2 :=
    List.filter_eq_self.mpr (fun a ha => beq_iff_eq.mpr (hall a ha))
  have h2 : uniqueFirst (b2.map (·.monthKey)) = [lm] := by
    apply uniqueFirst_all_eq
    · intro h
      exact hne (List.map_eq_nil.mp h)
    · intro x hx
      obtain ⟨t, ht, rfl⟩ := List.mem_map.mp hx
      exact hall t ht
  rw [h1, h2]
  norm_num

/-- C10: with the `this_month` timeframe every summary line has its
monthly average equal to its current-month actual — the filtered batch
spans exactly one distinct month, so the distinct-month divisor is one
and both figures round the same per-category total. -/
theorem buildVariableSummary_thisMonth (transactions : List TransactionRow) :
    ∀ v ∈ buildVariableSummary transactions Timeframe.this_month,
      v.avgMonthly = v.thisMonthActual := by
  intro v hv
  simp only [buildVariableSummary] at hv
  split at hv
  · simp at hv
  · split at hv
    · simp at hv
    · rename_i h1 h2
      rw [mem_sortLeB] at hv
      obtain ⟨c, hc, rfl⟩ := List.mem_map.mp hv
      refine varSummaryRow_eq _ _ c ?_ ?_
      · intro t ht
        exact beq_iff_eq.mp (List.mem_filter.mp ht).2
      · intro hnil
        rw [hnil] at h2
        exact h2 rfl

/-- C10 witness: the theorem applied to a concrete three-row batch;
the summary is non-empty, so the per-line equality is exercised. -/
theorem buildVariableSummary_thisMonth_witness :
    (buildVariableSummary [exVarRow1, exVarRow2, exVarRow3] Timeframe.this_month).all
      (fun v => v.avgMonthly == v.thisMonthActual) = true ∧
    (buildVariableSummary [exVarRow1, exVarRow2, exVarRow3] Timeframe.this_month).length = 2 := by
  constructor
  · exact List.all_eq_true.mpr
      (fun v hv => beq_iff_eq.mpr
        (buildVariableSummary_thisMonth [exVarRow1, exVarRow2, exVarRow3] v hv))
  · simp +decide [buildVariableSummary, exVarRow1, exVarRow2, exVarRow3, row0,
      uniqueFirst, uniqueFirstAux, sortLeB, insertLeB]
    split <;> rfl

/-! ## Claim C3 -/

theorem getD_map_lt {α β : Type} {f : α → β} :
    ∀ {l : List α} {i : Nat} {d : β} {d2 : α}, i < l.length →
      (l.map f).getD i d = f (l.getD i d2) := by
  intro l
  induction l with
  | nil => intro i d d2 h; simp at h
  | cons a t ih =>
    intro i d d2 h
    cases i with
    | zero => rfl
    | succ k =>
      show (t.map f).getD k d = f (t.getD k d2)
      exact ih (by simp at h; omega)

/-- C3: after `applyBillStatus` on a batch with at least one spend
transaction, a row is a bill candidate exactly when its matched rule
flagged it as a bill, or its provider type is a recognized
direct-debit type and its payee is recurring-like (spend transactions
spanning at least two distinct months and numbering at least two). -/
theorem applyBillStatus_candidate_spec (rows : List TransactionRow)
    (hspend : (rows.filter (·.isSpend)).isEmpty = false) :
    (applyBillStatus rows).length = rows.length ∧
    ∀ i, i < rows.length →
      ((applyBillStatus rows).getD i row0).isBillCandidate =
        ((rows.getD i row0).isBillRule ||
          (DIRECT_DEBIT_TYPES.contains (rows.getD i row0).type &&
           recurringLike rows (rows.getD i row0).payeeNormalized)) := by
  have hout : applyBillStatus rows =
      assignRequired (latestMonthOf rows) (assignStatus (latestMonthOf rows)
        (markCandidates rows)) := by
    unfold applyBillStatus
    rw [hspend]
    rfl
  have hmark : ∀ i, i < rows.length → (markCandidates rows).getD i row0 =
      {rows.getD i row0 with isBillCandidate := billCandidateOf rows (rows.getD i row0)} := by
    intro i h
    exact getD_map_lt h
  have hlen1 : (markCandidates rows).length = rows.length := by
    simp [markCandidates]
  have hlen2 : ∀ latest (l : List TransactionRow), (assignStatus latest l).length = l.length := by
    intro latest l
    simp [assignStatus]
  have hlen3 : ∀ latest (l : List TransactionRow),
      (assignRequired latest l).length = l.length := by
    intro latest l
    simp [assignRequired]
  have hstatcand : ∀ latest (l : List TransactionRow) i, i < l.length →
      ((assignStatus latest l).getD i row0).isBillCandidate =
        (l.getD i row0).isBillCandidate := by
    intro latest l i h
    show ((l.map _).getD i row0).isBillCandidate = _
    rw [getD_map_lt h]
    split
    · rfl
    · rfl
  have hreqcand : ∀ latest (l : List TransactionRow) i, i < l.length →
      ((assignRequired latest l).getD i row0).isBillCandidate =
        (l.getD i row0).isBillCandidate := by
    intro latest l i h
    show ((l.map _).getD i row0).isBillCandidate = _
    rw [getD_map_lt h]
    split
    · rfl
    · rfl
  constructor
  · rw [hout, hlen3, hlen2, hlen1]
  · intro i h
    rw [hout, hreqcand _ _ i (by rw [hlen2, hlen1]; exact h),
      hstatcand _ _ i (by rw [hlen1]; exact h), hmark i h]
    rfl

/-- C3 witness: on a two-row direct-debit batch spanning two months,
the specification instantiates at the first row and the candidate flag
evaluates to true. -/
theorem applyBillStatus_candidate_witness :
    ((applyBillStatus [exRowDD1, exRowDD2]).getD 0 row0).isBillCandidate =
      (([exRowDD1, exRowDD2].getD 0 row0).isBillRule ||
        (DIRECT_DEBIT_TYPES.contains ([exRowDD1, exRowDD2].getD 0 row0).type &&
         recurringLike [exRowDD1, exRowDD2] ([exRowDD1, exRowDD2].getD 0 row0).payeeNormalized)) ∧
    ((applyBillStatus [exRowDD1, exRowDD2]).getD 0 row0).isBillCandidate = true := by
  have h := (applyBillStatus_candidate_spec [exRowDD1, exRowDD2] (by decide)).2 0 (by decide)
  exact ⟨h, by rw [h]; decide⟩

/-! ## Claim C4 -/

theorem lookup_isSome_of_mem_keys {α β : Type} [BEq α] [LawfulBEq α] {k : α} :
    ∀ {l : List (α × β)}, k ∈ l.map Prod.fst → (List.lookup k l).isSome := by
  intro l
  induction l with
  | nil => intro h; simp at h
  | cons a t ih =>
    intro h
    rcases List.mem_map.mp h with ⟨p, hp, hfst⟩
    rcases List.mem_cons.mp hp with h1 | h1
    · subst h1
      simp [List.lookup, ← hfst]
    · by_cases hka : k == a.1
      · simp [List.lookup, hka]
      · simp only [List.lookup, hka]
        exact ih (List.mem_map.mpr ⟨p, h1, hfst⟩)

theorem knownMapOf_keys_ne : ∀ (l : List TransactionRow) (p : String × (String × String × Bool)),
    p ∈ knownMapOf l → p.1 ≠ "" := by
  have haux : ∀ (l : List TransactionRow) (acc : List (String × (String × String × Bool))),
      (∀ p ∈ acc, p.1 ≠ "") →
      ∀ p ∈ l.foldl (fun acc r =>
        if decide ((0.9 : ℚ) ≤ r.confidenceScore) && !(r.payeeNormalized == "") then
          if (List.lookup r.payeeNormalized acc).isSome then acc
          else acc ++ [(r.payeeNormalized, (r.categoryFinal, r.categoryGroup, r.isBillRule))]
        else acc) acc, p.1 ≠ "" := by
    intro l
    induction l with
    | nil => intro acc hacc p hp; exact hacc p hp
    | cons r t ih =>
      intro acc hacc p hp
      rw [List.foldl_cons] at hp
      refine ih _ ?_ p hp
      by_cases hc : (decide ((0.9 : ℚ) ≤ r.confidenceScore) && !(r.payeeNormalized == "")) = true
      · rw [if_pos hc]
        by_cases hl : (List.lookup r.payeeNormalized acc).isSome
        · rw [if_pos hl]; exact hacc
        · rw [if_neg hl]
          intro q hq
          rcases List.mem_append.mp hq with h1 | h1
          · exact hacc q h1
          · have hq2 : q = (r.payeeNormalized, (r.categoryFinal, r.categoryGroup, r.isBillRule)) := by
              simpa using h1
            subst hq2
            have := (Bool.and_eq_true _ _).mp hc
            simpa using this.2
      · rw [if_neg hc]; exact hacc
  intro l p hp
  exact haux l [] (by intro q hq; simp at hq) p hp

theorem bestMatchOf_eq_or (km : List (String × (String × String × Bool))) (key : String) :
    bestMatchOf km key = ((none : Option String), (0 : ℚ)) ∨
    ∃ k ∈ km.map Prod.fst, (bestMatchOf km key).1 = some k ∧
      (bestMatchOf km key).2 = sequenceMatcherRatio key k := by
  have haux : ∀ (keys : List String) (acc : Option String × ℚ),
      keys.foldl (fun acc k =>
        let s := sequenceMatcherRatio key k
        if decide (acc.2 < s) then (some k, s) else acc) acc = acc ∨
      ∃ k ∈ keys, (keys.foldl (fun acc k =>
        let s := sequenceMatcherRatio key k
        if decide (acc.2 < s) then (some k, s) else acc) acc).1 = some k ∧
        (keys.foldl (fun acc k =>
          let s := sequenceMatcherRatio key k
          if decide (acc.2 < s) then (some k, s) else acc) acc).2 = sequenceMatcherRatio key k := by
    intro keys
    induction keys with
    | nil => intro acc; exact Or.inl rfl
    | cons a t ih =>
      intro acc
      rw [List.foldl_cons]
      by_cases hs : decide (acc.2 < sequenceMatcherRatio key a) = true
      · rcases ih (if decide (acc.2 < sequenceMatcherRatio key a)
            then (some a, sequenceMatcherRatio key a) else acc) with h | ⟨k, hk, h1, h2⟩
        · right
          refine ⟨a, List.mem_cons_self a t, ?_, ?_⟩ <;> rw [h, if_pos hs]
        · right
          exact ⟨k, List.mem_cons_of_mem a hk, h1, h2⟩
      · rw [if_neg hs]
        rcases ih acc with h | ⟨k, hk, h1, h2⟩
        · exact Or.inl h
        · exact Or.inr ⟨k, List.mem_cons_of_mem a hk, h1, h2⟩
  rcases haux (km.map Prod.fst) ((none : Option String), (0 : ℚ)) with h | ⟨k, hk, h1, h2⟩
  · exact Or.inl h
  · exact Or.inr ⟨k, hk, h1, h2⟩

theorem pass1Row_reason (rules : List Rule) (r : TransactionRow) :
    (pass1Row rules r).confidenceReason ≠ "fuzzy_payee" := by
  cases hm : matchRule rules (normalizePayee r.name) with
  | some ru => simp [pass1Row, hm]
  | none =>
    cases hf : FALLBACK_CATEGORY_MAP r.monzoCategory with
    | some f => simp [pass1Row, hm, hf]
    | none => simp [pass1Row, hm, hf]

theorem fuzzyRow_adopt (km : List (String × (String × String × Bool)))
    (r : TransactionRow) (k : String) (e : String × String × Bool)
    (hkne : k ≠ "") (hconf : ¬ (0.7 : ℚ) ≤ r.confidenceScore)
    (hpayee : r.payeeNormalized ≠ "")
    (hbk : (bestMatchOf km r.payeeNormalized).1 = some k)
    (h88 : (0.88 : ℚ) ≤ (bestMatchOf km r.payeeNormalized).2)
    (he : List.lookup k km = some e) :
    fuzzyRow km r = {r with
      categoryFinal := e.1, categoryGroup := e.2.1, isBillRule := e.2.2,
      confidenceScore := min (0.85 : ℚ) (max (0.7 : ℚ) (bestMatchOf km r.payeeNormalized).2),
      confidenceReason := "fuzzy_payee", ruleIdApplied := "fuzzy:" ++ k} := by
  have hgf : (decide ((0.7 : ℚ) ≤ r.confidenceScore) || r.payeeNormalized == "") = false := by
    simp [hconf, hpayee]
  simp only [fuzzyRow, hgf, hbk, he]
  simp [hkne, h88]

theorem fuzzyRow_cases (km : List (String × (String × String × Bool)))
    (r : TransactionRow) (hkeys : ∀ p ∈ km, p.1 ≠ "") :
    fuzzyRow km r = r ∨
    (¬ (0.7 : ℚ) ≤ r.confidenceScore ∧ r.payeeNormalized ≠ "" ∧
      (0.88 : ℚ) ≤ (bestMatchOf km r.payeeNormalized).2 ∧
      ∃ k e, (bestMatchOf km r.payeeNormalized).1 = some k ∧ List.lookup k km = some e ∧
        fuzzyRow km r = {r with
          categoryFinal := e.1, categoryGroup := e.2.1, isBillRule := e.2.2,
          confidenceScore := min (0.85 : ℚ) (max (0.7 : ℚ) (bestMatchOf km r.payeeNormalized).2),
          confidenceReason := "fuzzy_payee", ruleIdApplied := "fuzzy:" ++ k}) := by
  by_cases hg : (decide ((0.7 : ℚ) ≤ r.confidenceScore) || r.payeeNormalized == "") = true
  · left
    simp only [fuzzyRow, if_pos hg]
  · have hgf : (decide ((0.7 : ℚ) ≤ r.confidenceScore) || r.payeeNormalized == "") = false := by
      revert hg
      cases (decide ((0.7 : ℚ) ≤ r.confidenceScore) || r.payeeNormalized == "") <;> simp
    have hsplit := hgf
    simp only [Bool.or_eq_false_iff] at hsplit
    have hconf : ¬ (0.7 : ℚ) ≤ r.confidenceScore := by
      have := hsplit.1
      simpa using this
    have hpayee : r.payeeNormalized ≠ "" := by
      have := hsplit.2
      simpa using this
    cases hbk : (bestMatchOf km r.payeeNormalized).1 with
    | none =>
      left
      simp [fuzzyRow, hgf, hbk]
    | some k =>
      have hk : k ∈ km.map Prod.fst := by
        rcases bestMatchOf_eq_or km r.payeeNormalized with h | ⟨k2, hk2, h1, h2⟩
        · rw [h] at hbk; simp at hbk
        · rw [h1] at hbk
          injection hbk with hkk
          subst hkk
          exact hk2
      have hkne : k ≠ "" := by
        rcases List.mem_map.mp hk with ⟨p, hp, hfst⟩
        rw [← hfst]
        exact hkeys p hp
      by_cases h88 : (0.88 : ℚ) ≤ (bestMatchOf km r.payeeNormalized).2
      · have hlk := lookup_isSome_of_mem_keys (k := k) (l := km) hk
        obtain ⟨e, he⟩ := Option.isSome_iff_exists.mp hlk
        right
        exact ⟨hconf, hpayee, h88, k, e, rfl, he,
          fuzzyRow_adopt km r k e hkne hconf hpayee hbk h88 he⟩
      · left
        simp [fuzzyRow, hgf, hbk, h88]

theorem categorize_eq (rules : List Rule) (rows : List TransactionRow) :
    categorize rules rows =
      if (knownMapOf (rows.map (pass1Row rules))).isEmpty then rows.map (pass1Row rules)
      else (rows.map (pass1Row rules)).map
        (fuzzyRow (knownMapOf (rows.map (pass1Row rules)))) := rfl

/-- C4: in the fuzzy pass of `categorize`, a row differs from its
pass-1 result only when its pass-1 confidence is below 0.70, its
normalized key is non-empty and the best similarity against the known
keys is at least 0.88; in that situation it adopts the matched known
entry with confidence clamp(bestScore, 0.70, 0.85), reason
`fuzzy_payee` and the synthetic rule id referencing the matched key;
consequently no row ever leaves `categorize` with reason `fuzzy_payee`
and a confidence below 0.70 or at or above 0.90. -/
theorem categorize_fuzzy_spec (rules : List Rule) (rows : List TransactionRow) :
    (∀ r ∈ categorize rules rows, r.confidenceReason = "fuzzy_payee" →
      (0.7 : ℚ) ≤ r.confidenceScore ∧ r.confidenceScore < (0.9 : ℚ)) ∧
    (categorize rules rows).length = rows.length ∧
    (∀ i, i < rows.length →
      ((categorize rules rows).getD i row0 ≠ pass1Row rules (rows.getD i row0) →
        ¬ (0.7 : ℚ) ≤ (pass1Row rules (rows.getD i row0)).confidenceScore ∧
        (pass1Row rules (rows.getD i row0)).payeeNormalized ≠ "" ∧
        (0.88 : ℚ) ≤ (bestMatchOf (knownMapOf (rows.map (pass1Row rules)))
          (pass1Row rules (rows.getD i row0)).payeeNormalized).2) ∧
      (∀ k e,
        (bestMatchOf (knownMapOf (rows.map (pass1Row rules)))
          (pass1Row rules (rows.getD i row0)).payeeNormalized).1 = some k →
        (0.88 : ℚ) ≤ (bestMatchOf (knownMapOf (rows.map (pass1Row rules)))
          (pass1Row rules (rows.getD i row0)).payeeNormalized).2 →
        List.lookup k (knownMapOf (rows.map (pass1Row rules))) = some e →
        ¬ (0.7 : ℚ) ≤ (pass1Row rules (rows.getD i row0)).confidenceScore →
        (pass1Row rules (rows.getD i row0)).payeeNormalized ≠ "" →
        (categorize rules rows).getD i row0 =
          {pass1Row rules (rows.getD i row0) with
            categoryFinal := e.1, categoryGroup := e.2.1, isBillRule := e.2.2,
            confidenceScore := min (0.85 : ℚ) (max (0.7 : ℚ)
              (bestMatchOf (knownMapOf (rows.map (pass1Row rules)))
                (pass1Row rules (rows.getD i row0)).payeeNormalized).2),
            confidenceReason := "fuzzy_payee",
            ruleIdApplied := "fuzzy:" ++ k})) := by
  refine ⟨?_, ?_, ?_⟩
  · intro r hr hreason
    by_cases hkm : (knownMapOf (rows.map (pass1Row rules))).isEmpty = true
    · rw [categorize_eq, if_pos hkm] at hr
      obtain ⟨r0, _, rfl⟩ := List.mem_map.mp hr
      exact absurd hreason (pass1Row_reason rules r0)
    · rw [categorize_eq, if_neg hkm] at hr
      obtain ⟨p1, hp1, rfl⟩ := List.mem_map.mp hr
      obtain ⟨r0, _, rfl⟩ := List.mem_map.mp hp1
      rcases fuzzyRow_cases _ _ (knownMapOf_keys_ne (rows.map (pass1Row rules)))
        with hcase | ⟨_, _, _, k, e, _, _, heq⟩
      · rw [hcase] at hreason
        exact absurd hreason (pass1Row_reason rules r0)
      · rw [heq]
        constructor
        · exact le_min (by norm_num) (le_max_left _ _)
        · exact lt_of_le_of_lt (min_le_left _ _) (by norm_num)
  · rw [categorize_eq]
    split <;> simp
  · intro i h
    by_cases hkm : (knownMapOf (rows.map (pass1Row rules))).isEmpty = true
    · have ho : (categorize rules rows).getD i row0 = pass1Row rules (rows.getD i row0) := by
        rw [categorize_eq, if_pos hkm]
        exact getD_map_lt h
      constructor
      · intro hne
        exact absurd ho hne
      · intro k e hbk h88 he hconf hpayee
        have hnil : knownMapOf (rows.map (pass1Row rules)) = [] := by
          cases hq : knownMapOf (rows.map (pass1Row rules)) with
          | nil => rfl
          | cons a t => rw [hq] at hkm; simp [List.isEmpty] at hkm
        rw [hnil] at hbk
        simp [bestMatchOf] at hbk
    · have ho : (categorize rules rows).getD i row0 =
          fuzzyRow (knownMapOf (rows.map (pass1Row rules)))
            (pass1Row rules (rows.getD i row0)) := by
        rw [categorize_eq, if_neg hkm,
          @getD_map_lt _ _ _ _ _ row0 row0 (by simpa using h), getD_map_lt h]
      constructor
      · intro hne
        rw [ho] at hne
        rcases fuzzyRow_cases _ _ (knownMapOf_keys_ne (rows.map (pass1Row rules)))
          with hcase | ⟨h1, h2, h3, _⟩
        · exact absurd hcase hne
        · exact ⟨h1, h2, h3⟩
      · intro k e hbk h88 he hconf hpayee
        rw [ho]
        have hk : k ∈ (knownMapOf (rows.map (pass1Row rules))).map Prod.fst := by
          rcases bestMatchOf_eq_or (knownMapOf (rows.map (pass1Row rules)))
            (pass1Row rules (rows.getD i row0)).payeeNormalized with hcase | ⟨k2, hk2, h1, h2⟩
          · rw [hcase] at hbk
            simp at hbk
          · rw [h1] at hbk
            injection hbk with hkk
            subst hkk
            exact hk2
        have hkne : k ≠ "" := by
          rcases List.mem_map.mp hk with ⟨p, hp, hfst⟩
          rw [← hfst]
          exact knownMapOf_keys_ne (rows.map (pass1Row rules)) p hp
        exact fuzzyRow_adopt _ _ k e hkne hconf hpayee hbk h88 he

/-- C4 witness: a concrete two-row batch where the second row (no rule
or fallback, confidence 0) adopts the first row's rule assignment via
a similarity of 8/9, landing at confidence 0.85. -/
theorem categorize_fuzzy_witness :
    (categorize [exRule] [exRowKnown, exRowFuzzy]).getD 1 row0 =
      {pass1Row [exRule] ([exRowKnown, exRowFuzzy].getD 1 row0) with
        categoryFinal := "Streaming", categoryGroup := "required_bill", isBillRule := true,
        confidenceScore := min (0.85 : ℚ) (max (0.7 : ℚ)
          (bestMatchOf (knownMapOf ([exRowKnown, exRowFuzzy].map (pass1Row [exRule])))
            (pass1Row [exRule] ([exRowKnown, exRowFuzzy].getD 1 row0)).payeeNormalized).2),
        confidenceReason := "fuzzy_payee", ruleIdApplied := "fuzzy:" ++ "aaaaaaaab"} ∧
    ((categorize [exRule] [exRowKnown, exRowFuzzy]).getD 1 row0).confidenceScore = 0.85 := by
  have hkm : knownMapOf ([exRowKnown, exRowFuzzy].map (pass1Row [exRule])) =
      [("aaaaaaaab", ("Streaming", "required_bill", true))] := by
    simp +decide [knownMapOf, pass1Row, matchRule, FALLBACK_CATEGORY_MAP, normalizePayee,
      toLowerStr, jsTrim, trimSpaces, collapseSpaces, isAllowedChar, exRule, exRowKnown,
      exRowFuzzy, row0, List.lookup]
    norm_num
  have hkey : (pass1Row [exRule] ([exRowKnown, exRowFuzzy].getD 1 row0)).payeeNormalized =
      "aaaaaaaac" := by
    simp +decide [pass1Row, matchRule, FALLBACK_CATEGORY_MAP, normalizePayee, toLowerStr,
      jsTrim, trimSpaces, collapseSpaces, isAllowedChar, exRule, exRowKnown, exRowFuzzy, row0]
  have hconf0 : (pass1Row [exRule] ([exRowKnown, exRowFuzzy].getD 1 row0)).confidenceScore =
      0 := by
    simp +decide [pass1Row, matchRule, FALLBACK_CATEGORY_MAP, normalizePayee, toLowerStr,
      jsTrim, trimSpaces, collapseSpaces, isAllowedChar, exRule, exRowKnown, exRowFuzzy, row0]
  have hr : sequenceMatcherRatio "aaaaaaaac" "aaaaaaaab" = 8 / 9 := by
    simp +decide [sequenceMatcherRatio, lcsLen, lcsAux, String.length]
    norm_num
  have hbest : bestMatchOf (knownMapOf ([exRowKnown, exRowFuzzy].map (pass1Row [exRule])))
      (pass1Row [exRule] ([exRowKnown, exRowFuzzy].getD 1 row0)).payeeNormalized =
      (some "aaaaaaaab", 8 / 9) := by
    rw [hkm, hkey]
    simp [bestMatchOf, hr]
  have h := ((categorize_fuzzy_spec [exRule] [exRowKnown, exRowFuzzy]).2.2 1 (by norm_num)).2
    "aaaaaaaab" ("Streaming", "required_bill", true)
    (by rw [hbest]) (by rw [hbest]; norm_num) (by rw [hkm]; simp [List.lookup])
    (by rw [hconf0]; norm_num) (by rw [hkey]; simp)
  refine ⟨h, ?_⟩
  rw [h]
  show min (0.85 : ℚ) (max (0.7 : ℚ) _) = 0.85
  rw [hbest]
  rw [max_def, min_def]
  norm_num

/-! ## Claims C1 and C2 -/

theorem listCharLe_refl : ∀ a : List Char, listCharLe a a = true := by
  intro a
  induction a with
  | nil => rfl
  | cons c t ih => simp [listCharLe, ih]

theorem listCharLe_total : ∀ a b : List Char, listCharLe a b = true ∨ listCharLe b a = true := by
  intro a
  induction a with
  | nil => intro b; exact Or.inl rfl
  | cons x xs ih =>
    intro b
    cases b with
    | nil => exact Or.inr rfl
    | cons y ys =>
      simp only [listCharLe]
      rcases Nat.lt_trichotomy x.toNat y.toNat with h | h | h
      · left; simp [h]
      · rw [h]
        simp only [lt_irrefl, if_neg (lt_irrefl y.toNat)]
        simp only [if_false]
        rcases ih ys with h2 | h2
        · left; simpa using h2
        · right; simpa using h2
      · right; simp [h]

theorem listCharLe_trans : ∀ a b c : List Char,
    listCharLe a b = true → listCharLe b c = true → listCharLe a c = true := by
  intro a
  induction a with
  | nil => intro b c _ _; rfl
  | cons x xs ih =>
    intro b c hab hbc
    cases b with
    | nil => simp [listCharLe] at hab
    | cons y ys =>
      cases c with
      | nil => simp [listCharLe] at hbc
      | cons z zs =>
        simp only [listCharLe] at hab hbc ⊢
        by_cases hxy : x.toNat < y.toNat
        · by_cases hyz : y.toNat < z.toNat
          · simp [Nat.lt_trans hxy hyz]
          · by_cases hzy : z.toNat < y.toNat
            · rw [if_neg hyz, if_pos hzy] at hbc
              simp at hbc
            · have hyz2 : y.toNat = z.toNat := by omega
              simp [hyz2 ▸ hxy]
        · by_cases hyx : y.toNat < x.toNat
          · rw [if_neg hxy, if_pos hyx] at hab
            simp at hab
          · have hxy2 : x.toNat = y.toNat := by omega
            rw [if_neg hxy, if_neg hyx] at hab
            by_cases hyz : y.toNat < z.toNat
            · simp [hxy2 ▸ hyz]
            · by_cases hzy : z.toNat < y.toNat
              · rw [if_neg hyz, if_pos hzy] at hbc
                simp at hbc
              · rw [if_neg hyz, if_neg hzy] at hbc
                have hxz : ¬ x.toNat < z.toNat := by omega
                have hzx : ¬ z.toNat < x.toNat := by omega
                rw [if_neg hxz, if_neg hzx]
                exact ih ys zs hab hbc

theorem strLe_refl (a : String) : strLe a a = true := listCharLe_refl a.toList

theorem strLe_total (a b : String) : strLe a b = true ∨ strLe b a = true :=
  listCharLe_total a.toList b.toList

theorem strLe_trans {a b c : String} (h1 : strLe a b = true) (h2 : strLe b c = true) :
    strLe a c = true := listCharLe_trans a.toList b.toList c.toList h1 h2

theorem pairwise_insertLeB {le : α → α → Bool}
    (htot : ∀ a b, le a b = true ∨ le b a = true)
    (htrans : ∀ {a b c}, le a b = true → le b c = true → le a c = true) (x : α) :
    ∀ {l : List α}, List.Pairwise (fun a b => le a b = true) l →
      List.Pairwise (fun a b => le a b = true) (insertLeB le x l) := by
  intro l
  induction l with
  | nil =>
    intro _
    simp [insertLeB]
  | cons y ys ih =>
    intro hp
    rw [List.pairwise_cons] at hp
    obtain ⟨hy, hys⟩ := hp
    simp only [insertLeB]
    by_cases hxy : le x y = true
    · rw [if_pos hxy]
      rw [List.pairwise_cons]
      constructor
      · intro b hb
        rcases List.mem_cons.mp hb with h1 | h1
        · subst h1; exact hxy
        · exact htrans hxy (hy b h1)
      · exact List.pairwise_cons.mpr ⟨hy, hys⟩
    · rw [if_neg hxy]
      rw [List.pairwise_cons]
      constructor
      · intro b hb
        rcases mem_insertLeB.mp hb with h1 | h1
        · rcases htot b y with h2 | h2
          · rw [h1] at h2
            exact absurd h2 hxy
          · rw [h1] at h2 ⊢
            exact h2
        · exact hy b h1
      · exact ih hys

theorem sortLeB_pairwise {le : α → α → Bool}
    (htot : ∀ a b, le a b = true ∨ le b a = true)
    (htrans : ∀ {a b c}, le a b = true → le b c = true → le a c = true) :
    ∀ l : List α, List.Pairwise (fun a b => le a b = true) (sortLeB le l) := by
  intro l
  induction l with
  | nil => simp [sortLeB]
  | cons a t ih =>
    show List.Pairwise _ (insertLeB le a (sortLeB le t))
    exact pairwise_insertLeB htot htrans a ih

theorem getLastD_cons_mem (d : α) : ∀ (a : α) (t : List α), (a :: t).getLastD d ∈ a :: t := by
  intro a t
  induction t generalizing a with
  | nil => simp [List.getLastD]
  | cons b t2 ih =>
    rw [List.getLastD_cons]
    exact List.mem_cons_of_mem a (ih b)

theorem getLastD_mem_of_ne_nil {l : List α} (d : α) (h : l ≠ []) : l.getLastD d ∈ l := by
  cases l with
  | nil => exact absurd rfl h
  | cons a t => exact getLastD_cons_mem d a t

theorem le_getLastD_of_pairwise {le : α → α → Bool} (hrefl : ∀ a, le a a = true) (d : α) :
    ∀ {l : List α}, List.Pairwise (fun a b => le a b = true) l →
      ∀ x ∈ l, le x (l.getLastD d) = true := by
  intro l
  induction l with
  | nil => intro _ x hx; simp at hx
  | cons a t ih =>
    intro hp x hx
    rw [List.pairwise_cons] at hp
    obtain ⟨ha, ht⟩ := hp
    rw [List.getLastD_cons]
    rcases List.mem_cons.mp hx with h1 | h1
    · subst h1
      cases t with
      | nil => exact hrefl _
      | cons b t2 => exact ha _ (getLastD_cons_mem _ b t2)
    · cases t with
      | nil => simp at h1
      | cons b t2 => exact ih ht x h1

theorem latestMonthOf_spec (rows : List TransactionRow)
    (h : (rows.filter (·.isSpend)).isEmpty = false) :
    latestMonthOf rows ∈ (rows.filter (·.isSpend)).map (·.monthKey) ∧
    ∀ m ∈ (rows.filter (·.isSpend)).map (·.monthKey),
      strLe m (latestMonthOf rows) = true := by
  have hnil : (rows.filter (·.isSpend)).map (·.monthKey) ≠ [] := by
    intro hq
    cases hf : rows.filter (·.isSpend) with
    | nil => rw [hf] at h; simp [List.isEmpty] at h
    | cons a t => rw [hf] at hq; simp at hq
  have hun : uniqueFirst ((rows.filter (·.isSpend)).map (·.monthKey)) ≠ [] := by
    intro hq
    cases hm : (rows.filter (·.isSpend)).map (·.monthKey) with
    | nil => exact hnil hm
    | cons a t =>
      have : a ∈ uniqueFirst ((rows.filter (·.isSpend)).map (·.monthKey)) :=
        mem_uniqueFirst.mpr (by rw [hm]; exact List.mem_cons_self a t)
      rw [hq] at this
      simp at this
  have hsortne : sortLeB strLe (uniqueFirst ((rows.filter (·.isSpend)).map (·.monthKey))) ≠ [] := by
    intro hq
    cases hm : uniqueFirst ((rows.filter (·.isSpend)).map (·.monthKey)) with
    | nil => exact hun hm
    | cons a t =>
      have : a ∈ sortLeB strLe (uniqueFirst ((rows.filter (·.isSpend)).map (·.monthKey))) :=
        mem_sortLeB.mpr (by rw [hm]; exact List.mem_cons_self a t)
      rw [hq] at this
      simp at this
  constructor
  · have hmem : latestMonthOf rows ∈
        sortLeB strLe (uniqueFirst ((rows.filter (·.isSpend)).map (·.monthKey))) := by
      have := getLastD_mem_of_ne_nil "" hsortne
      exact this
    exact mem_uniqueFirst.mp (mem_sortLeB.mp hmem)
  · intro m hm
    have hm2 : m ∈ sortLeB strLe (uniqueFirst ((rows.filter (·.isSpend)).map (·.monthKey))) :=
      mem_sortLeB.mpr (mem_uniqueFirst.mpr hm)
    exact le_getLastD_of_pairwise strLe_refl ""
      (sortLeB_pairwise strLe_total (fun h1 h2 => strLe_trans h1 h2) _) m hm2

theorem candSpend_contains_iff (l : List TransactionRow) (cond : TransactionRow → Bool)
    (P : TransactionRow → Prop) (hcond : ∀ q, cond q = true ↔ P q) (p : String) :
    ((((l.filter (fun r => r.isBillCandidate && r.isSpend)).filter cond).map
      (·.payeeNormalized)).contains p = true) ↔
    (∃ q ∈ l, q.isBillCandidate = true ∧ q.isSpend = true ∧ P q ∧
      q.payeeNormalized = p) := by
  constructor
  · intro hc
    have hmem : p ∈ (((l.filter (fun r => r.isBillCandidate && r.isSpend)).filter cond).map
        (·.payeeNormalized)) := by
      simpa using hc
    obtain ⟨q, hq, hp⟩ := List.mem_map.mp hmem
    obtain ⟨hq2, hcondq⟩ := List.mem_filter.mp hq
    obtain ⟨hq3, hflags⟩ := List.mem_filter.mp hq2
    obtain ⟨hcand, hspend⟩ := (Bool.and_eq_true _ _).mp hflags
    exact ⟨q, hq3, hcand, hspend, (hcond q).mp hcondq, hp⟩
  · intro ⟨q, hq, hcand, hspend, hP, hp⟩
    have hmem : p ∈ (((l.filter (fun r => r.isBillCandidate && r.isSpend)).filter cond).map
        (·.payeeNormalized)) := by
      refine List.mem_map.mpr ⟨q, ?_, hp⟩
      refine List.mem_filter.mpr ⟨?_, (hcond q).mpr hP⟩
      refine List.mem_filter.mpr ⟨hq, ?_⟩
      simp [hcand, hspend]
    simpa using hmem

theorem markCandidates_getD (rows : List TransactionRow) (i : Nat) (h : i < rows.length) :
    (markCandidates rows).getD i row0 =
      {rows.getD i row0 with isBillCandidate := billCandidateOf rows (rows.getD i row0)} :=
  getD_map_lt h

theorem assignStatus_getD_fields (latest : String) (l : List TransactionRow) (i : Nat)
    (h : i < l.length) :
    ((assignStatus latest l).getD i row0).payeeNormalized = (l.getD i row0).payeeNormalized ∧
    ((assignStatus latest l).getD i row0).isSpend = (l.getD i row0).isSpend ∧
    ((assignStatus latest l).getD i row0).monthKey = (l.getD i row0).monthKey ∧
    ((assignStatus latest l).getD i row0).isBillCandidate = (l.getD i row0).isBillCandidate ∧
    ((assignStatus latest l).getD i row0).amountAbs = (l.getD i row0).amountAbs := by
  simp only [assignStatus]
  rw [@getD_map_lt _ _ _ _ _ row0 row0 h]
  split
  · exact ⟨rfl, rfl, rfl, rfl, rfl⟩
  · exact ⟨rfl, rfl, rfl, rfl, rfl⟩

theorem assignRequired_getD_fields (latest : String) (l : List TransactionRow) (i : Nat)
    (h : i < l.length) :
    ((assignRequired latest l).getD i row0).payeeNormalized = (l.getD i row0).payeeNormalized ∧
    ((assignRequired latest l).getD i row0).isSpend = (l.getD i row0).isSpend ∧
    ((assignRequired latest l).getD i row0).monthKey = (l.getD i row0).monthKey ∧
    ((assignRequired latest l).getD i row0).isBillCandidate = (l.getD i row0).isBillCandidate ∧
    ((assignRequired latest l).getD i row0).billStatus = (l.getD i row0).billStatus := by
  simp only [assignRequired]
  rw [@getD_map_lt _ _ _ _ _ row0 row0 h]
  split
  · exact ⟨rfl, rfl, rfl, rfl, rfl⟩
  · exact ⟨rfl, rfl, rfl, rfl, rfl⟩

theorem assignStatus_billStatus (latest : String) (l : List TransactionRow) (i : Nat)
    (h : i < l.length) :
    (((assignStatus latest l).getD i row0).billStatus = "active" ↔
      ((l.getD i row0).isBillCandidate = true ∧
        ∃ q ∈ l, q.isBillCandidate = true ∧ q.isSpend = true ∧ q.monthKey = latest ∧
          q.payeeNormalized = (l.getD i row0).payeeNormalized)) ∧
    (((assignStatus latest l).getD i row0).billStatus = "inactive_candidate" ↔
      ((l.getD i row0).isBillCandidate = true ∧
        ¬(∃ q ∈ l, q.isBillCandidate = true ∧ q.isSpend = true ∧ q.monthKey = latest ∧
          q.payeeNormalized = (l.getD i row0).payeeNormalized) ∧
        (∃ q ∈ l, q.isBillCandidate = true ∧ q.isSpend = true ∧ q.monthKey ≠ latest ∧
          q.payeeNormalized = (l.getD i row0).payeeNormalized))) ∧
    (((assignStatus latest l).getD i row0).billStatus = "active" ∨
     ((assignStatus latest l).getD i row0).billStatus = "inactive_candidate" ∨
     ((assignStatus latest l).getD i row0).billStatus = "not_bill") := by
  have hpresent := candSpend_contains_iff l (fun r => r.monthKey == latest)
    (fun r => r.monthKey = latest) (fun q => by simp) ((l.getD i row0).payeeNormalized)
  have hseen := candSpend_contains_iff l (fun r => !(r.monthKey == latest))
    (fun r => r.monthKey ≠ latest) (fun q => by simp) ((l.getD i row0).payeeNormalized)
  simp only [assignStatus]
  rw [@getD_map_lt _ _ _ _ _ row0 row0 h]
  simp only [List.getD_eq_getElem?_getD] at hpresent hseen ⊢
  cases hc : (l[i]?.getD row0).isBillCandidate with
  | false =>
    simp only [hc, Bool.not_false, if_pos rfl]
    refine ⟨by simp, by simp, Or.inr (Or.inr rfl)⟩
  | true =>
    simp only [hc, Bool.not_true]
    rw [if_neg (by simp)]
    cases hp : ((((l.filter (fun r => r.isBillCandidate && r.isSpend)).filter
        (fun r => r.monthKey == latest)).map (·.payeeNormalized)).contains
        (l[i]?.getD row0).payeeNormalized) with
    | true =>
      rw [hp] at hpresent
      simp only [true_iff] at hpresent
      simp
      constructor
      · exact hpresent
      · intro hall
        exfalso
        obtain ⟨q, hq, h1, h2, h3, h4⟩ := hpresent
        exact hall q hq h1 h2 h3 h4
    | false =>
      rw [hp] at hpresent
      cases hs : ((((l.filter (fun r => r.isBillCandidate && r.isSpend)).filter
          (fun r => !(r.monthKey == latest))).map (·.payeeNormalized)).contains
          (l[i]?.getD row0).payeeNormalized) with
      | true =>
        rw [hs] at hseen
        simp only [true_iff] at hseen
        simp
        constructor
        · intro x hx h1 h2 h3 h4
          have hfalse := hpresent.mpr ⟨x, hx, h1, h2, h3, h4⟩
          simp at hfalse
        · exact hseen
      | false =>
        rw [hs] at hseen
        simp
        constructor
        · intro x hx h1 h2 h3 h4
          have hfalse := hpresent.mpr ⟨x, hx, h1, h2, h3, h4⟩
          simp at hfalse
        · intro _ x hx h1 h2 h3 h4
          have hfalse := hseen.mpr ⟨x, hx, h1, h2, h3, h4⟩
          simp at hfalse

theorem exists_markCandidates_iff (rows : List TransactionRow) (M : String → Prop)
    (p : String) :
    (∃ q ∈ markCandidates rows, q.isBillCandidate = true ∧ q.isSpend = true ∧
      M q.monthKey ∧ q.payeeNormalized = p) ↔
    (∃ r ∈ rows, billCandidateOf rows r = true ∧ r.isSpend = true ∧
      M r.monthKey ∧ r.payeeNormalized = p) := by
  constructor
  · intro ⟨q, hq, h1, h2, h3, h4⟩
    obtain ⟨r, hr, rfl⟩ := List.mem_map.mp hq
    exact ⟨r, hr, h1, h2, h3, h4⟩
  · intro ⟨r, hr, h1, h2, h3, h4⟩
    exact ⟨{r with isBillCandidate := billCandidateOf rows r},
      List.mem_map.mpr ⟨r, hr, rfl⟩, h1, h2, h3, h4⟩

/-- C2 amended: with no spend transactions every row gets `not_bill`;
otherwise the latest month is the maximal month key among spend
transactions, and per candidate row: a candidate row is `active`
exactly when its payee has a candidate spend transaction in the latest
month, `inactive_candidate` exactly when the row is a candidate, the
payee has no candidate spend transaction in the latest month but has
one in an earlier month, and every other row (in particular every
non-candidate row) is `not_bill`. -/
theorem applyBillStatus_status_amended (rows : List TransactionRow) :
    ((rows.filter (·.isSpend)).isEmpty = true →
      ∀ r ∈ applyBillStatus rows, r.billStatus = "not_bill") ∧
    ((rows.filter (·.isSpend)).isEmpty = false →
      (latestMonthOf rows ∈ (rows.filter (·.isSpend)).map (·.monthKey) ∧
        ∀ m ∈ (rows.filter (·.isSpend)).map (·.monthKey),
          strLe m (latestMonthOf rows) = true) ∧
      (applyBillStatus rows).length = rows.length ∧
      (∀ i, i < rows.length →
        (((applyBillStatus rows).getD i row0).billStatus = "active" ↔
          (billCandidateOf rows (rows.getD i row0) = true ∧
            ∃ r ∈ rows, billCandidateOf rows r = true ∧ r.isSpend = true ∧
              r.monthKey = latestMonthOf rows ∧
              r.payeeNormalized = (rows.getD i row0).payeeNormalized)) ∧
        (((applyBillStatus rows).getD i row0).billStatus = "inactive_candidate" ↔
          (billCandidateOf rows (rows.getD i row0) = true ∧
            ¬(∃ r ∈ rows, billCandidateOf rows r = true ∧ r.isSpend = true ∧
              r.monthKey = latestMonthOf rows ∧
              r.payeeNormalized = (rows.getD i row0).payeeNormalized) ∧
            (∃ r ∈ rows, billCandidateOf rows r = true ∧ r.isSpend = true ∧
              r.monthKey ≠ latestMonthOf rows ∧
              r.payeeNormalized = (rows.getD i row0).payeeNormalized))) ∧
        (((applyBillStatus rows).getD i row0).billStatus = "active" ∨
         ((applyBillStatus rows).getD i row0).billStatus = "inactive_candidate" ∨
         ((applyBillStatus rows).getD i row0).billStatus = "not_bill"))) := by
  constructor
  · intro hempty r hr
    unfold applyBillStatus at hr
    rw [if_pos hempty] at hr
    obtain ⟨r0, _, rfl⟩ := List.mem_map.mp hr
    rfl
  · intro hne
    have hout : applyBillStatus rows = assignRequired (latestMonthOf rows)
        (assignStatus (latestMonthOf rows) (markCandidates rows)) := by
      unfold applyBillStatus
      rw [hne]
      rfl
    refine ⟨latestMonthOf_spec rows hne, ?_, ?_⟩
    · rw [hout]
      simp [assignRequired, assignStatus, markCandidates]
    · intro i hi
      have hlen2 : (markCandidates rows).length = rows.length := by simp [markCandidates]
      have hlen3 : (assignStatus (latestMonthOf rows) (markCandidates rows)).length =
          rows.length := by
        simp [assignStatus, markCandidates]
      have hbs : ((applyBillStatus rows).getD i row0).billStatus =
          ((assignStatus (latestMonthOf rows) (markCandidates rows)).getD i row0).billStatus := by
        rw [hout]
        exact (assignRequired_getD_fields _ _ i (by rw [hlen3]; exact hi)).2.2.2.2
      have hchar := assignStatus_billStatus (latestMonthOf rows) (markCandidates rows) i
        (by rw [hlen2]; exact hi)
      have hmk := markCandidates_getD rows i hi
      obtain ⟨hA, hI, hT⟩ := hchar
      rw [hmk] at hA hI
      have hex1 := exists_markCandidates_iff rows (fun m => m = latestMonthOf rows)
        ((rows.getD i row0).payeeNormalized)
      have hex2 := exists_markCandidates_iff rows (fun m => m ≠ latestMonthOf rows)
        ((rows.getD i row0).payeeNormalized)
      rw [hbs]
      exact ⟨hA.trans (and_congr Iff.rfl hex1),
        hI.trans (and_congr Iff.rfl (and_congr (not_congr hex1) hex2)), hT⟩

theorem getD_mem_lt {l : List α} {i : Nat} (d : α) (h : i < l.length) : l.getD i d ∈ l := by
  induction l generalizing i with
  | nil => simp at h
  | cons a t ih =>
    cases i with
    | zero => exact List.mem_cons_self a t
    | succ k =>
      exact List.mem_cons_of_mem a (ih (by simp at h; omega))

theorem exists_getD_of_mem {l : List α} {q : α} (d : α) (h : q ∈ l) :
    ∃ i, ∃ h2 : i < l.length, l.getD i d = q := by
  induction l with
  | nil => simp at h
  | cons a t ih =>
    rcases List.mem_cons.mp h with h1 | h1
    · exact ⟨0, by simp, h1.symm⟩
    · obtain ⟨i, h2, h3⟩ := ih h1
      exact ⟨i + 1, by simp; omega, h3⟩

theorem assignStatus_active_witness (latest : String) (l : List TransactionRow) (p : String)
    (hex : ∃ q ∈ l, q.isBillCandidate = true ∧ q.isSpend = true ∧ q.monthKey = latest ∧
      q.payeeNormalized = p) :
    ∃ q3 ∈ assignStatus latest l, q3.billStatus = "active" ∧ q3.isSpend = true ∧
      q3.monthKey = latest ∧ q3.payeeNormalized = p := by
  obtain ⟨q, hq, h1, h2, h3, h4⟩ := hex
  obtain ⟨j, hj, hjq⟩ := exists_getD_of_mem row0 hq
  have hfields := assignStatus_getD_fields latest l j hj
  have hchar := (assignStatus_billStatus latest l j hj).1
  have hjlen : j < (assignStatus latest l).length := by
    simp only [assignStatus]
    simpa using hj
  refine ⟨(assignStatus latest l).getD j row0, getD_mem_lt row0 hjlen, ?_, ?_, ?_, ?_⟩
  · refine hchar.mpr ⟨by rw [hjq]; exact h1, q, hq, h1, h2, h3, by rw [hjq]⟩
  · rw [hfields.2.1, hjq]
    exact h2
  · rw [hfields.2.2.1, hjq]
    exact h3
  · rw [hfields.1, hjq]
    exact h4

theorem assignRequired_spec (latest : String) (l : List TransactionRow) (i : Nat)
    (h : i < l.length)
    (hwit : (l.getD i row0).billStatus = "active" →
      ∃ q ∈ l, q.billStatus = "active" ∧ q.isSpend = true ∧ q.monthKey = latest ∧
        q.payeeNormalized = (l.getD i row0).payeeNormalized) :
    (((assignRequired latest l).getD i row0).billStatus ≠ "active" →
      ((assignRequired latest l).getD i row0).requiredAmountExact = 0) ∧
    (((assignRequired latest l).getD i row0).billStatus = "active" →
      ((l.filter (fun q => q.billStatus == "active" && q.isSpend)).filter
        (fun q => q.payeeNormalized == (l.getD i row0).payeeNormalized &&
          q.monthKey == latest)) ≠ [] ∧
      ((assignRequired latest l).getD i row0).requiredAmountExact =
        ((((l.filter (fun q => q.billStatus == "active" && q.isSpend)).filter
          (fun q => q.payeeNormalized == (l.getD i row0).payeeNormalized &&
            q.monthKey == latest)).map (·.amountAbs)).sum)) := by
  have hbs : ((assignRequired latest l).getD i row0).billStatus =
      (l.getD i row0).billStatus := (assignRequired_getD_fields latest l i h).2.2.2.2
  cases hst : (l.getD i row0).billStatus == "active" with
  | false =>
    have hne : (l.getD i row0).billStatus ≠ "active" := by
      intro hq
      rw [hq] at hst
      simp at hst
    constructor
    · intro _
      simp only [assignRequired]
      rw [@getD_map_lt _ _ _ _ _ row0 row0 h, if_pos (by rw [hst]; rfl)]
    · intro hq
      rw [hbs] at hq
      exact absurd hq hne
  | true =>
    have heq : (l.getD i row0).billStatus = "active" := by
      have := hst
      simpa using this
    obtain ⟨q, hq, hq1, hq2, hq3, hq4⟩ := hwit heq
    have hmemA : q ∈ l.filter (fun q => q.billStatus == "active" && q.isSpend) :=
      List.mem_filter.mpr ⟨hq, by simp [hq1, hq2]⟩
    have hmemB : q ∈ (l.filter (fun q => q.billStatus == "active" && q.isSpend)).filter
        (fun q => q.payeeNormalized == (l.getD i row0).payeeNormalized &&
          q.monthKey == latest) :=
      List.mem_filter.mpr ⟨hmemA, by simp [hq3, hq4]⟩
    have hnonempty : (l.filter (fun q => q.billStatus == "active" && q.isSpend)).filter
        (fun q => q.payeeNormalized == (l.getD i row0).payeeNormalized &&
          q.monthKey == latest) ≠ [] := by
      intro hnil
      rw [hnil] at hmemB
      simp at hmemB
    constructor
    · intro hcontra
      rw [hbs] at hcontra
      exact absurd heq hcontra
    · intro _
      refine ⟨hnonempty, ?_⟩
      simp only [assignRequired]
      rw [@getD_map_lt _ _ _ _ _ row0 row0 h]
      rw [if_neg (by rw [hst]; simp)]
      have hie : ((l.filter (fun r => r.billStatus == "active" && r.isSpend)).filter
          (fun q => q.payeeNormalized == (l.getD i row0).payeeNormalized &&
            q.monthKey == latest)).isEmpty = false := by
        cases hq5 : (l.filter (fun r => r.billStatus == "active" && r.isSpend)).filter
            (fun q => q.payeeNormalized == (l.getD i row0).payeeNormalized &&
              q.monthKey == latest) with
        | nil => exact absurd hq5 hnonempty
        | cons a t => rfl
      rw [if_neg (by rw [hie]; simp)]

theorem filter_map_pres {α β : Type} (f : α → α) (g : α → β) (l : List α)
    (P Q : α → Bool) (hP : ∀ r, P (f r) = Q r) (hA : ∀ r, g (f r) = g r) :
    ((l.map f).filter P).map g = (l.filter Q).map g := by
  rw [List.filter_map, List.map_map]
  have h1 : l.filter (P ∘ f) = l.filter Q := List.filter_congr (fun r _ => hP r)
  rw [h1]
  exact List.map_congr_left (fun r _ => hA r)

/-- C1 (amended): after `applyBillStatus`, every row whose bill status is
not `active` has required amount 0, and every `active` row's required
amount is the exact sum of `amountAbs` over the output rows that are
themselves active spend rows of the same normalized payee in the latest
spend month; that set of rows is never empty for an `active` row, so the
historical-mean fallback branch never fires on an `active` row. -/
theorem applyBillStatus_required_amended (rows : List TransactionRow) :
    (applyBillStatus rows).length = rows.length ∧
    ∀ i, i < rows.length →
      (((applyBillStatus rows).getD i row0).billStatus ≠ "active" →
        ((applyBillStatus rows).getD i row0).requiredAmountExact = 0) ∧
      (((applyBillStatus rows).getD i row0).billStatus = "active" →
        ((applyBillStatus rows).filter (fun q => q.billStatus == "active" && q.isSpend &&
          (q.payeeNormalized == ((applyBillStatus rows).getD i row0).payeeNormalized &&
            q.monthKey == latestMonthOf rows))) ≠ [] ∧
        ((applyBillStatus rows).getD i row0).requiredAmountExact =
          ((((applyBillStatus rows).filter (fun q => q.billStatus == "active" && q.isSpend &&
            (q.payeeNormalized == ((applyBillStatus rows).getD i row0).payeeNormalized &&
              q.monthKey == latestMonthOf rows))).map (·.amountAbs)).sum)) := by
  cases hsp : (rows.filter (·.isSpend)).isEmpty with
  | true =>
    have hout : applyBillStatus rows = rows.map (fun r =>
        {r with
          billStatus := "not_bill"
          isBillCandidate := false
          requiredAmountExact := 0}) := by
      unfold applyBillStatus
      rw [if_pos hsp]
    constructor
    · rw [hout]
      simp
    · intro i hi
      have hg : (applyBillStatus rows).getD i row0 =
          {rows.getD i row0 with
            billStatus := "not_bill"
            isBillCandidate := false
            requiredAmountExact := 0} := by
        rw [hout]
        exact getD_map_lt hi
      constructor
      · intro _
        rw [hg]
      · intro hact
        rw [hg] at hact
        simp at hact
  | false =>
    have hout : applyBillStatus rows = assignRequired (latestMonthOf rows)
        (assignStatus (latestMonthOf rows) (markCandidates rows)) := by
      unfold applyBillStatus
      rw [hsp]
      rfl
    have hlen2 : (markCandidates rows).length = rows.length := by simp [markCandidates]
    have hlen3 : (assignStatus (latestMonthOf rows) (markCandidates rows)).length =
        rows.length := by simp [assignStatus, markCandidates]
    constructor
    · rw [hout]
      simp [assignRequired, assignStatus, markCandidates]
    · intro i hi
      have hi3 : i < (assignStatus (latestMonthOf rows) (markCandidates rows)).length := by
        rw [hlen3]
        exact hi
      have hi2 : i < (markCandidates rows).length := by
        rw [hlen2]
        exact hi
      have hwit : ((assignStatus (latestMonthOf rows) (markCandidates rows)).getD i
            row0).billStatus = "active" →
          ∃ q ∈ assignStatus (latestMonthOf rows) (markCandidates rows),
            q.billStatus = "active" ∧ q.isSpend = true ∧
            q.monthKey = latestMonthOf rows ∧
            q.payeeNormalized = ((assignStatus (latestMonthOf rows)
              (markCandidates rows)).getD i row0).payeeNormalized := by
        intro hact
        obtain ⟨-, hex⟩ := (assignStatus_billStatus (latestMonthOf rows)
          (markCandidates rows) i hi2).1.mp hact
        have hw := assignStatus_active_witness (latestMonthOf rows) (markCandidates rows)
          (((markCandidates rows).getD i row0).payeeNormalized) hex
        rw [(assignStatus_getD_fields (latestMonthOf rows) (markCandidates rows) i hi2).1]
        exact hw
      have hspec := assignRequired_spec (latestMonthOf rows)
        (assignStatus (latestMonthOf rows) (markCandidates rows)) i hi3 hwit
      have hpp : ((applyBillStatus rows).getD i row0).payeeNormalized =
          ((assignStatus (latestMonthOf rows) (markCandidates rows)).getD i
            row0).payeeNormalized := by
        rw [hout]
        exact (assignRequired_getD_fields _ _ i hi3).1
      constructor
      · intro hne0
        rw [hout] at hne0 ⊢
        exact hspec.1 hne0
      · intro hact
        rw [hout] at hact
        obtain ⟨hne, hsum⟩ := hspec.2 hact
        rw [hpp, hout]
        have hfm : ((assignRequired (latestMonthOf rows)
              (assignStatus (latestMonthOf rows) (markCandidates rows))).filter
            (fun q => q.billStatus == "active" && q.isSpend &&
              (q.payeeNormalized == (((assignStatus (latestMonthOf rows)
                  (markCandidates rows)).getD i row0)).payeeNormalized &&
                q.monthKey == latestMonthOf rows))).map (·.amountAbs) =
            (((assignStatus (latestMonthOf rows) (markCandidates rows)).filter
              (fun q => q.billStatus == "active" && q.isSpend)).filter
              (fun q => q.payeeNormalized == (((assignStatus (latestMonthOf rows)
                  (markCandidates rows)).getD i row0)).payeeNormalized &&
                q.monthKey == latestMonthOf rows)).map (·.amountAbs) := by
          rw [List.filter_filter]
          simp only [assignRequired]
          exact filter_map_pres _ _ _ _ _
            (fun r => by
              try dsimp only
              split <;> exact Bool.and_comm _ _)
            (fun r => by
              try dsimp only
              split <;> rfl)
        refine ⟨?_, ?_⟩
        · intro h0
          have hlenf := congrArg List.length hfm
          rw [h0] at hlenf
          simp only [List.map_nil, List.length_nil, List.length_map] at hlenf
          have h1 := List.length_pos.mpr hne
          omega
        · rw [hfm]
          exact hsum

/-- C1 counterexample: in the batch `[exRowBill, exRowOther]` both rows
are spend rows of payee `p` in the latest month `2024-01`, with
`amountAbs` 10 and 5, so the payee's latest-month spend total is 15;
row 0 comes out `active` yet its required amount is 10: only rows that
are themselves active spend rows are summed, and the non-candidate row
of the same payee is excluded. -/
theorem applyBillStatus_required_claim_counterexample :
    ((applyBillStatus [exRowBill, exRowOther]).getD 0 row0).billStatus = "active" ∧
    ((applyBillStatus [exRowBill, exRowOther]).getD 0 row0).payeeNormalized = "p" ∧
    latestMonthOf [exRowBill, exRowOther] = "2024-01" ∧
    (([exRowBill, exRowOther].filter (fun q => q.isSpend &&
        q.payeeNormalized == "p" && q.monthKey == "2024-01")).map (·.amountAbs)).sum = 15 ∧
    ((applyBillStatus [exRowBill, exRowOther]).getD 0 row0).requiredAmountExact = 10 ∧
    (10 : ℚ) ≠ 15 := by
  refine ⟨by decide, by decide, by decide, ?_, ?_, by norm_num⟩
  · simp +decide [exRowBill, exRowOther, row0]
    norm_num
  · simp +decide [applyBillStatus, latestMonthOf, uniqueFirst, uniqueFirstAux, sortLeB,
      insertLeB, strLe, listCharLe, markCandidates, billCandidateOf, recurringLike,
      payeeSpendRows, DIRECT_DEBIT_TYPES, assignStatus, assignRequired, exRowBill,
      exRowOther, row0]

theorem applyBillStatus_required_amended_witness :
    ((applyBillStatus [exRowBill, exRowOther]).getD 1 row0).requiredAmountExact = 0 :=
  ((applyBillStatus_required_amended [exRowBill, exRowOther]).2 1 (by decide)).1 (by decide)

/-- C2 counterexample: in `[exRowBill, exRowOther]` both rows belong to
payee `p` and the batch has spend rows; row 0 is assigned `active`
while row 1 — a non-candidate row of the same payee — is assigned
`not_bill`, so the status is assigned per row, not applied to all of
the payee's rows. -/
theorem applyBillStatus_status_claim_counterexample :
    ([exRowBill, exRowOther].filter (·.isSpend)).isEmpty = false ∧
    ((applyBillStatus [exRowBill, exRowOther]).getD 0 row0).billStatus = "active" ∧
    ((applyBillStatus [exRowBill, exRowOther]).getD 1 row0).payeeNormalized =
      ((applyBillStatus [exRowBill, exRowOther]).getD 0 row0).payeeNormalized ∧
    ((applyBillStatus [exRowBill, exRowOther]).getD 1 row0).billStatus = "not_bill" ∧
    ("not_bill" : String) ≠ "active" := by
  decide

theorem applyBillStatus_status_amended_witness :
    ((applyBillStatus [exRowBill, exRowOther]).getD 0 row0).billStatus = "active" := by
  have h := ((applyBillStatus_status_amended [exRowBill, exRowOther]).2 (by decide)).2.2
    0 (by decide)
  exact h.1.mpr ⟨by decide, ⟨exRowBill, by simp, by decide, by decide, by decide, by decide⟩⟩
